import Mathlib

/-!
# Verification of the CleanCSV repair pipeline

Shallow embedding of the repair-and-normalization pipeline of
`CleanCSV.py` (decoder, quote-aware stitcher, delimiter inference,
header/preamble detection, lenient row-shape repair, column naming,
cell normalization, duplicate removal) together with proofs about the
spec's claims.

Modelling conventions:
* Python `str` is modelled by `String` / `List Char`.  Character
  classes of Python regexes (`\w`, `\s`, `\d`, `[A-Za-z]`) and the
  `str.strip` / `str.lower` whitespace and case rules are modelled at
  their ASCII meaning (the pipeline's own heuristics only distinguish
  ASCII characters).
* Python `float` arithmetic is modelled exactly by unreduced integer
  fractions (`Frac` below); every threshold comparison made by the
  code (`0.85`, `0.75`, `0.35`, `0.06`, `0.05` …) is an exact
  comparison of small rationals.
* Bytes are `Fin 256`; fallible operations return `Option`/`Except`.
* `pandas` tables are modelled as a header (list of column names) plus
  rows of cells; a cell is `Option String` (`none` = missing / `NaN`).
-/

namespace CleanCSV

/-! ## Python string primitives -/

/-- ASCII whitespace as recognised by Python's `str.strip`, `str.isspace`
and the regex class `\s` (modelled at its ASCII subset). -/
def pyWS (c : Char) : Bool :=
  c = ' ' || c = '\t' || c = '\n' || c = '\r' || c = '\x0b' || c = '\x0c'

/-- Python `str.strip()` on a character list. -/
def pyStripL (cs : List Char) : List Char :=
  ((cs.dropWhile pyWS).reverse.dropWhile pyWS).reverse

/-- Python `str.strip()`. -/
def pyStrip (s : String) : String :=
  ⟨pyStripL s.data⟩

/-- Python truthiness test `not ln.strip()`: the string is blank. -/
def isBlank (s : String) : Bool :=
  pyStrip s = ""

/-- Split a character list at every occurrence of the character `sep`
(Python `str.split(sep)` for a one-character separator): the number of
parts is one more than the number of separators. -/
def splitOnChar (sep : Char) : List Char → List (List Char)
  | [] => [[]]
  | c :: cs =>
    match splitOnChar sep cs with
    | [] => [[c]]
    | l :: ls => if c = sep then [] :: l :: ls else (c :: l) :: ls

/-- Python `text.split(sep)` for a one-character separator. -/
def pySplit (s : String) (sep : Char) : List String :=
  (splitOnChar sep s.data).map fun l => ⟨l⟩

/-- Python `str.count(c)` for a single character. -/
def countChar (s : String) (c : Char) : Nat :=
  s.data.countP (· = c)

/-- The characters at which Python `str.splitlines` breaks lines. -/
def pyLineBreak (c : Char) : Bool :=
  c = '\n' || c = '\r' || c = '\x0b' || c = '\x0c' ||
  c = '\x1c' || c = '\x1d' || c = '\x1e' || c = '\x85' ||
  c = '\u2028' || c = '\u2029'

/-- Python `str.splitlines()` on a character list: break at every line
boundary character, treating `"\r\n"` as a single boundary, and do not
produce a final empty line for a trailing boundary. -/
def pySplitlinesL : List Char → List (List Char)
  | [] => []
  | '\r' :: '\n' :: cs => [] :: pySplitlinesL cs
  | c :: cs =>
    if pyLineBreak c then [] :: pySplitlinesL cs
    else
      match pySplitlinesL cs with
      | [] => [[c]]
      | l :: ls => (c :: l) :: ls

/-- Python `text.splitlines()`. -/
def pySplitlines (s : String) : List String :=
  (pySplitlinesL s.data).map fun l => ⟨l⟩

/-- Python `"\n".join(lines)`. -/
def joinLines (ls : List String) : String :=
  String.intercalate "\n" ls

/-! ## Quote-aware stitcher (`stitch_csv_records`)

`process_line_for_quotes` scans one physical line left to right,
carrying the "inside quoted span" flag: a doubled quote `""` is an
escape and does not toggle the flag, a lone quote toggles it. -/

def processLineForQuotes : List Char → Bool → Bool
  | [], inq => inq
  | '"' :: '"' :: rest, inq => processLineForQuotes rest inq
  | '"' :: rest, inq => processLineForQuotes rest (!inq)
  | _ :: rest, inq => processLineForQuotes rest inq

/-- One step of the stitch loop: `buf` is the list of already-buffered
physical lines of the current record (most recent first), `inq` the
quote flag.  Returns the emitted logical lines (in order) and the final
buffer/flag state. -/
def stitchLoop : List String → List String → Bool → List String × List String
  | [], buf, _ => ([], buf)
  | line :: rest, buf, inq =>
    let buf' := buf ++ [line]
    let inq' := processLineForQuotes line.data inq
    if inq' then
      stitchLoop rest buf' true
    else
      let (out, finalBuf) := stitchLoop rest [] false
      (joinLines buf' :: out, finalBuf)

/-- The logical lines produced by `stitch_csv_records` on `text`:
physical lines are `text.split("\n")`; after scanning a physical line
with the quote flag false the buffer is emitted as one logical line;
at end of input a non-empty buffer is flushed as a final logical line. -/
def stitchLogicalLines (text : String) : List String :=
  let (out, finalBuf) := stitchLoop (pySplit text '\n') [] false
  if finalBuf.isEmpty then out else out ++ [joinLines finalBuf]

/-- `stitch_csv_records` (the stitched text; statistics are not needed
by the claims about the stitched text itself). -/
def stitch_csv_records (text : String) : String :=
  joinLines (stitchLogicalLines text)

/-! ## Decoder (`decode_text_with_fallback`)

Bytes are `Fin 256`.  The four candidate codecs of the source are
modelled: strict UTF-8 (rejecting overlong forms, surrogates and
out-of-range code points), UTF-8 with optional BOM, Windows-1252
(undefined at the five unassigned bytes), and Latin-1 (total). -/

abbrev Byte := Fin 256

def utf8Cont (b : Byte) : Bool := 0x80 ≤ b.val && b.val < 0xC0

def utf8Decode : List Byte → Option (List Char)
  | [] => some []
  | b :: bs =>
    let n := b.val
    if n < 0x80 then
      (utf8Decode bs).map (Char.ofNat n :: ·)
    else if n < 0xC2 then none
    else if n < 0xE0 then
      match bs with
      | c1 :: bs' =>
        if utf8Cont c1 then
          (utf8Decode bs').map (Char.ofNat ((n - 0xC0) * 0x40 + (c1.val - 0x80)) :: ·)
        else none
      | [] => none
    else if n < 0xF0 then
      match bs with
      | c1 :: c2 :: bs' =>
        if utf8Cont c1 && utf8Cont c2 &&
            (decide (n ≠ 0xE0) || decide (0xA0 ≤ c1.val)) &&
            (decide (n ≠ 0xED) || decide (c1.val < 0xA0)) then
          (utf8Decode bs').map
            (Char.ofNat ((n - 0xE0) * 0x1000 + (c1.val - 0x80) * 0x40 + (c2.val - 0x80)) :: ·)
        else none
      | _ => none
    else if n < 0xF5 then
      match bs with
      | c1 :: c2 :: c3 :: bs' =>
        if utf8Cont c1 && utf8Cont c2 && utf8Cont c3 &&
            (decide (n ≠ 0xF0) || decide (0x90 ≤ c1.val)) &&
            (decide (n ≠ 0xF4) || decide (c1.val < 0x90)) then
          (utf8Decode bs').map
            (Char.ofNat ((n - 0xF0) * 0x40000 + (c1.val - 0x80) * 0x1000 +
              (c2.val - 0x80) * 0x40 + (c3.val - 0x80)) :: ·)
        else none
      | _ => none
    else none

/-- The `utf-8-sig` codec: strip a leading BOM if present, then UTF-8. -/
def utf8SigDecode (bs : List Byte) : Option (List Char) :=
  if bs.take 3 = [(0xEF : Byte), 0xBB, 0xBF] then utf8Decode (bs.drop 3)
  else utf8Decode bs

/-- Windows-1252: bytes `0x81, 0x8D, 0x8F, 0x90, 0x9D` are unassigned
(strict decoding fails on them); the other bytes of `0x80`–`0x9F` map
to their Windows-1252 code points, everything else coincides with
Latin-1. -/
def cp1252Char (b : Byte) : Option Char :=
  if b.val < 0x80 || 0xA0 ≤ b.val then some (Char.ofNat b.val)
  else match b.val with
  | 0x80 => some (Char.ofNat 0x20AC) | 0x82 => some (Char.ofNat 0x201A)
  | 0x83 => some (Char.ofNat 0x0192) | 0x84 => some (Char.ofNat 0x201E)
  | 0x85 => some (Char.ofNat 0x2026) | 0x86 => some (Char.ofNat 0x2020)
  | 0x87 => some (Char.ofNat 0x2021) | 0x88 => some (Char.ofNat 0x02C6)
  | 0x89 => some (Char.ofNat 0x2030) | 0x8A => some (Char.ofNat 0x0160)
  | 0x8B => some (Char.ofNat 0x2039) | 0x8C => some (Char.ofNat 0x0152)
  | 0x8E => some (Char.ofNat 0x017D) | 0x91 => some (Char.ofNat 0x2018)
  | 0x92 => some (Char.ofNat 0x2019) | 0x93 => some (Char.ofNat 0x201C)
  | 0x94 => some (Char.ofNat 0x201D) | 0x95 => some (Char.ofNat 0x2022)
  | 0x96 => some (Char.ofNat 0x2013) | 0x97 => some (Char.ofNat 0x2014)
  | 0x98 => some (Char.ofNat 0x02DC) | 0x99 => some (Char.ofNat 0x2122)
  | 0x9A => some (Char.ofNat 0x0161) | 0x9B => some (Char.ofNat 0x203A)
  | 0x9C => some (Char.ofNat 0x0153) | 0x9E => some (Char.ofNat 0x017E)
  | 0x9F => some (Char.ofNat 0x0178)
  | _ => none

def cp1252Decode (bs : List Byte) : Option (List Char) :=
  bs.mapM cp1252Char

/-- Latin-1 decodes every byte (to the code point of the same value). -/
def latin1Decode (bs : List Byte) : List Char :=
  bs.map fun b => Char.ofNat b.val

/-- `decode_text_with_fallback`: try `utf-8-sig`, `utf-8`, `cp1252`,
`latin-1` in order under strict decoding and return the first success
together with the encoding name; `none` models the `ValueError` raised
when no candidate decodes. -/
def decode_text_with_fallback (data : List Byte) : Option (String × String) :=
  match utf8SigDecode data with
  | some cs => some (⟨cs⟩, "utf-8-sig")
  | none =>
    match utf8Decode data with
    | some cs => some (⟨cs⟩, "utf-8")
    | none =>
      match cp1252Decode data with
      | some cs => some (⟨cs⟩, "cp1252")
      | none => some (⟨latin1Decode data⟩, "latin-1")

/-- The line-ending normalization of `normalize_to_utf8_lf`:
`text.replace("\r\n", "\n").replace("\r", "\n")`. -/
def normalizeNewlinesL : List Char → List Char
  | [] => []
  | '\r' :: '\n' :: cs => '\n' :: normalizeNewlinesL cs
  | '\r' :: cs => '\n' :: normalizeNewlinesL cs
  | c :: cs => c :: normalizeNewlinesL cs

def normalizeNewlines (s : String) : String :=
  ⟨normalizeNewlinesL s.data⟩

/-! ## Python `csv.reader`

The reader's state machine (default dialect: `quotechar '"'`,
`doublequote`, `strict=False`, no escape character), for input text
whose records are separated by `'\n'`.  A `'\r'` is not given its
end-of-line meaning here; every text this development parses has had
`'\r'` removed by the line-ending normalizer, and theorems that
quantify over texts carry a no-`'\r'` hypothesis where it matters.

States mirror the C implementation: `startRecord` (between records),
`startField` (immediately after a delimiter), `inField` (accumulating
an unquoted field; a quote here is an ordinary character), `inQuoted`
(inside a quoted span), `quoteInQuoted` (just after a quote inside a
quoted field: a second quote is an escaped literal quote, a delimiter
or newline ends the field/record, anything else reverts to an
unquoted-field scan). -/

inductive RState where
  | startRecord | startField | inField | inQuoted | quoteInQuoted
  deriving DecidableEq, Repr

/-- The csv reader loop: `accF` is the current field's accumulated
characters, `accR` the current record's completed fields. -/
def csvScan (d : Char) : List Char → RState → List Char → List String → List (List String)
  | [], st, accF, accR =>
    match st with
    | .startRecord => []
    | _ => [accR ++ [⟨accF⟩]]
  | c :: rest, st, accF, accR =>
    match st with
    | .startRecord =>
      if c = '\n' then [] :: csvScan d rest .startRecord [] []
      else if c = '"' then csvScan d rest .inQuoted [] []
      else if c = d then csvScan d rest .startField [] [""]
      else csvScan d rest .inField [c] []
    | .startField =>
      if c = '"' then csvScan d rest .inQuoted accF accR
      else if c = d then csvScan d rest .startField [] (accR ++ [""])
      else if c = '\n' then (accR ++ [""]) :: csvScan d rest .startRecord [] []
      else csvScan d rest .inField [c] accR
    | .inField =>
      if c = d then csvScan d rest .startField [] (accR ++ [⟨accF⟩])
      else if c = '\n' then (accR ++ [⟨accF⟩]) :: csvScan d rest .startRecord [] []
      else csvScan d rest .inField (accF ++ [c]) accR
    | .inQuoted =>
      if c = '"' then csvScan d rest .quoteInQuoted accF accR
      else csvScan d rest .inQuoted (accF ++ [c]) accR
    | .quoteInQuoted =>
      if c = '"' then csvScan d rest .inQuoted (accF ++ ['"']) accR
      else if c = d then csvScan d rest .startField [] (accR ++ [⟨accF⟩])
      else if c = '\n' then (accR ++ [⟨accF⟩]) :: csvScan d rest .startRecord [] []
      else csvScan d rest .inField (accF ++ [c]) accR

/-- `csv.reader` over a whole text with delimiter `d`. -/
def csvParse (text : String) (d : Char) : List (List String) :=
  csvScan d text.data .startRecord [] []

/-! ## Exact fraction arithmetic

Python float arithmetic on the pipeline's scores is modelled exactly
by unreduced fractions of integers.  (Mathlib's `ℚ` normalizes through
`Nat.gcd`, which the kernel cannot reduce, so concrete evaluations by
`decide` use this representation; `Frac.toRat` interprets it.)  Every
denominator produced by the pipeline's arithmetic is positive, which
is what makes the cross-multiplied comparisons below the right ones.
-/

structure Frac where
  num : Int
  den : Int
  deriving Repr, DecidableEq

namespace Frac

def ofInt (n : Int) : Frac := ⟨n, 1⟩

instance (n : Nat) : OfNat Frac n := ⟨⟨n, 1⟩⟩

def add (x y : Frac) : Frac := ⟨x.num * y.den + y.num * x.den, x.den * y.den⟩

def sub (x y : Frac) : Frac := ⟨x.num * y.den - y.num * x.den, x.den * y.den⟩

def mul (x y : Frac) : Frac := ⟨x.num * y.num, x.den * y.den⟩

def div (x y : Frac) : Frac := ⟨x.num * y.den, x.den * y.num⟩

def neg (x : Frac) : Frac := ⟨-x.num, x.den⟩

instance : Add Frac := ⟨Frac.add⟩
instance : Sub Frac := ⟨Frac.sub⟩
instance : Mul Frac := ⟨Frac.mul⟩
instance : Div Frac := ⟨Frac.div⟩
instance : Neg Frac := ⟨Frac.neg⟩

/-- Comparison, valid for positive denominators. -/
def le (x y : Frac) : Bool := decide (x.num * y.den ≤ y.num * x.den)

def lt (x y : Frac) : Bool := decide (x.num * y.den < y.num * x.den)

def toRat (x : Frac) : ℚ := (x.num : ℚ) / (x.den : ℚ)

end Frac

/-- A fraction `a / b` of naturals as a `Frac`. -/
def fracOfRatio (a b : Nat) : Frac := ⟨(a : Int), (b : Int)⟩

/-! ## Header / preamble detection (`detect_and_strip_preamble`)

All score arithmetic is exact (the source uses floats on the same
rationals). -/

/-- `next(csv.reader([ln], delimiter=d))`: the first record of the
single-line input; on a line with no record (only the empty line) the
source's `except` fallback `line.split(delimiter)` applies. -/
def tokenizeLine (ln : String) (d : Char) : List String :=
  match csvParse ln d with
  | [] => pySplit ln d
  | r :: _ => r

/-- Keep the first occurrence of every element (used for `set(parts)`
sizes and for the mode computation). -/
def dedupFirst : List String → List String
  | [] => []
  | x :: xs => x :: (dedupFirst xs).filter (· ≠ x)

def dedupFirstNat : List Nat → List Nat
  | [] => []
  | x :: xs => x :: (dedupFirstNat xs).filter (· ≠ x)

/-- `Counter(xs).most_common(1)[0][0]`: the value with the greatest
multiplicity; on ties the first-encountered value wins. -/
def modalCount (xs : List Nat) : Nat :=
  ((dedupFirstNat xs).foldl
    (fun acc v =>
      match acc with
      | none => some v
      | some b => if xs.count b < xs.count v then some v else acc)
    none).getD 0

/-- `re.search(r"[A-Za-z]", p)`. -/
def tokenHasAlpha (p : String) : Bool :=
  p.data.any Char.isAlpha

/-- `re.fullmatch(r"[-+]?\d+(\.\d+)?", p)`. -/
def tokenIsNumeric (p : String) : Bool :=
  let cs := p.data
  let cs := match cs with
    | c :: rest => if c = '-' || c = '+' then rest else cs
    | [] => cs
  let intPart := cs.takeWhile Char.isDigit
  let rest := cs.dropWhile Char.isDigit
  decide (intPart ≠ []) &&
    (decide (rest = []) ||
      (match rest with
       | '.' :: fr => decide (fr ≠ []) && fr.all Char.isDigit
       | _ => false))

/-- `re.match(r"\d{4}-\d{2}-\d{2}", p)` (a prefix match). -/
def tokenIsDateLike (p : String) : Bool :=
  match p.data with
  | y1 :: y2 :: y3 :: y4 :: '-' :: m1 :: m2 :: '-' :: d1 :: d2 :: _ =>
    y1.isDigit && y2.isDigit && y3.isDigit && y4.isDigit &&
    m1.isDigit && m2.isDigit && d1.isDigit && d2.isDigit
  | _ => false

/-- `score_header_line`: reward letter-bearing and distinct tokens,
punish numeric, date-shaped and long tokens, extra punishment for a
`key: value`-looking line. -/
def score_header_line (line : String) (d : Char) : Frac :=
  let parts := (tokenizeLine line d).map pyStrip
  let n : Nat := if parts.isEmpty then 1 else parts.length
  let nq : Frac := Frac.ofInt n
  let alpha : Frac := Frac.ofInt (parts.countP tokenHasAlpha)
  let numeric : Frac := Frac.ofInt (parts.countP tokenIsNumeric)
  let dateLike : Frac := Frac.ofInt (parts.countP tokenIsDateLike)
  let uniqRatio : Frac := Frac.ofInt (dedupFirst parts).length / nq
  let avgLen : Frac := Frac.ofInt (parts.map (·.length)).sum / nq
  let score := (alpha / nq) * 4 - (numeric / nq) * 5 - (dateLike / nq) * 4 +
    uniqRatio * 2 - avgLen * (fracOfRatio 5 100)
  if line.data.contains ':' && n ≤ 2 then score - 3 else score

/-- The quote-aware field counts `(line index, field count)` of the
non-blank lines among the first 60. -/
def headerFieldCounts (lines : List String) (d : Char) : List (Nat × Nat) :=
  ((lines.take 60).enum.filter (fun p => !isBlank p.2)).map
    (fun p => (p.1, (tokenizeLine p.2 d).length))

/-- Stable ascending insertion by line index (`candidates.sort`). -/
def insertByIdx (x : Nat × String) : List (Nat × String) → List (Nat × String)
  | [] => [x]
  | y :: ys => if y.1 < x.1 then y :: insertByIdx x ys else x :: y :: ys

def sortByIdx : List (Nat × String) → List (Nat × String)
  | [] => []
  | x :: xs => insertByIdx x (sortByIdx xs)

/-- Stable descending insertion by score (`scored.sort(reverse=True)`). -/
def insertScored (x : Nat × Frac) : List (Nat × Frac) → List (Nat × Frac)
  | [] => [x]
  | y :: ys => if Frac.lt x.2 y.2 then y :: insertScored x ys else x :: y :: ys

def sortScoredDesc : List (Nat × Frac) → List (Nat × Frac)
  | [] => []
  | x :: xs => insertScored x (sortScoredDesc xs)

/-- The candidate header lines: all lines matching the modal field
count, plus the first non-blank line, sorted by line index. -/
def headerCandidates (lines : List String) (d : Char) : List (Nat × String) :=
  let fcs := headerFieldCounts lines d
  let modal := modalCount (fcs.map (·.2))
  let cands := (fcs.filter (fun p => p.2 = modal)).map
    (fun p => (p.1, lines.getD p.1 ""))
  let cands :=
    match lines.findIdx? (fun ln => !isBlank ln) with
    | some fne =>
      if cands.all (fun p => p.1 ≠ fne) then cands ++ [(fne, lines.getD fne "")]
      else cands
    | none => cands
  sortByIdx cands

/-- The scored candidates, best first. -/
def headerScored (lines : List String) (d : Char) : List (Nat × Frac) :=
  sortScoredDesc ((headerCandidates lines d).map
    (fun p => (p.1, score_header_line p.2 d)))

def MAX_PREAMBLE : Nat := 15
def MIN_GAP : Frac := fracOfRatio 3 4

/-- `detect_and_strip_preamble` (the returned text only; the log and
header-info dictionary carry the same quantities this definition
computes).  The score gap against a missing second candidate is
`float("-inf")`, hence never below `MIN_GAP`; `none` models it. -/
def detect_and_strip_preamble (text : String) (d : Char) : String :=
  let lines := pySplitlines text
  if lines.isEmpty then text
  else if (headerFieldCounts lines d).isEmpty then text
  else
    match headerScored lines d with
    | [] => text
    | (bestI, bestScore) :: restScored =>
      if MAX_PREAMBLE < bestI then text
      else if 0 < bestI &&
          (match restScored with
           | (_, second) :: _ => Frac.lt (bestScore - second) MIN_GAP
           | [] => false) then text
      else joinLines (lines.drop bestI)

/-! ## Delimiter detection (`guess_delimiter_euro_aware`)

The candidate set is the source's fixed list `[",", ";", "\t", "|"]`
(the function's `candidates` parameter is never supplied by a caller).

The sniffer (`csv.Sniffer.sniff` restricted to the candidates): its
first phase `_guess_quote_and_delimiter` looks for quoted-field
patterns; each of its regexes requires a `"` or `'` character, so on a
quote-free sample it finds nothing and `sniff` falls through to the
frequency phase `_guess_delimiter`, which is modelled here in full.
(The quote phase itself is not modelled; every sample on which a
theorem of this file evaluates the sniffer is quote-free.)

`_guess_delimiter` evaluates chunks of 10 lines; for every character
it tabulates per-line occurrence counts, takes the (adjusted) mode of
those counts, and collects the candidates whose mode accounts for at
least a `consistency` fraction of the lines, lowering `consistency`
from 1.0 in 0.01 steps down to 0.9 until some candidate qualifies.
(The source decrements a float; the accumulated drift only affects
which value plays the role of the final `0.90` level, far below any
comparison the evaluated samples exercise; the levels are modelled as
the exact rationals `1 - k/100`, `k ≤ 10`.) -/

def defaultCandidates : List Char := [',', ';', '\t', '|']

/-- Bump the multiplicity of `f` in an insertion-ordered assoc list. -/
def bumpAssoc : List (Nat × Nat) → Nat → List (Nat × Nat)
  | [], f => [(f, 1)]
  | (k, v) :: rest, f =>
    if k = f then (k, v + 1) :: rest else (k, v) :: bumpAssoc rest f

/-- The meta-frequency table of character `ch` over the lines: how many
lines contain `ch` exactly `f` times, keyed by `f` in first-appearance
order. -/
def freqTable (ch : Char) (lines : List String) : List (Nat × Nat) :=
  lines.foldl (fun m ln => bumpAssoc m (countChar ln ch)) []

/-- Python `max(items, key=itemgetter(1))`: first maximal item. -/
def pickFirstMaxByCnt (x : Nat × Nat) : List (Nat × Nat) → Nat × Nat
  | [] => x
  | y :: ys => if x.2 < y.2 then pickFirstMaxByCnt y ys else pickFirstMaxByCnt x ys

/-- The sniffer's (adjusted) mode of a meta-frequency table: `none` is
the `continue` for a character that never occurs; with several entries
the mode's multiplicity is reduced by the other entries' total (which
may go negative, hence `Int`). -/
def sniffMode (items : List (Nat × Nat)) : Option (Nat × Int) :=
  match items with
  | [] => none
  | [(f, v)] => if f = 0 then none else some (f, (v : Int))
  | x :: y :: rest =>
    let best := pickFirstMaxByCnt x (y :: rest)
    let others := (x :: y :: rest).erase best
    some (best.1, (best.2 : Int) - ((others.map (·.2)).sum : Int))

/-- The candidates qualifying at one consistency level. -/
def sniffQualAt (prefixLines : List String) (total : Nat) (level : Frac) :
    List (Char × Nat × Int) :=
  defaultCandidates.filterMap fun ch =>
    match sniffMode (freqTable ch prefixLines) with
    | none => none
    | some (f, v) =>
      if decide (0 < f) && decide (0 < v) &&
          Frac.le level (Frac.ofInt v / Frac.ofInt (total : Int)) then
        some (ch, f, v)
      else none

/-- Walk the consistency levels `1.0, 0.99, …, 0.90` and return the
qualifiers of the first level with any. -/
def sniffQualifiers (prefixLines : List String) (total : Nat) :
    List Frac → List (Char × Nat × Int)
  | [] => []
  | l :: ls =>
    match sniffQualAt prefixLines total l with
    | [] => sniffQualifiers prefixLines total ls
    | q => q

def consistencyLevels : List Frac :=
  (List.range 11).map fun k => (1 : Frac) - fracOfRatio k 100

def sniffPreferred : List Char := [',', '\t', ';', ' ', ':']

/-- After the chunk loop: no qualifier → failure; several → first of
the preferred list present, else the lexicographically greatest
`((frequency, adjusted mode), char)`. -/
def sniffFinish (delims : List (Char × Nat × Int)) : Option Char :=
  match delims with
  | [] => none
  | [x] => some x.1
  | _ =>
    match sniffPreferred.find? (fun p => delims.any (·.1 = p)) with
    | some p => some p
    | none =>
      (delims.foldl
        (fun acc x =>
          match acc with
          | none => some x
          | some b =>
            if b.2.1 < x.2.1 ∨ (b.2.1 = x.2.1 ∧ b.2.2 < x.2.2) ∨
                (b.2.1 = x.2.1 ∧ b.2.2 = x.2.2 ∧ b.1 < x.1) then some x
            else acc)
        none).map (·.1)

/-- The chunk loop of `_guess_delimiter`: `fuel` counts the remaining
chunks, `k` the 1-based iteration; `delims`, once non-empty, is never
recomputed, and a single qualifier returns immediately. -/
def sniffChunkLoop (data : List String) (chunkLen : Nat) :
    Nat → Nat → List (Char × Nat × Int) → Option Char
  | 0, _, delims => sniffFinish delims
  | fuel + 1, k, delims =>
    let prefixLines := data.take (chunkLen * k)
    let total := min (chunkLen * k) data.length
    let delims' := if delims.isEmpty then
        sniffQualifiers prefixLines total consistencyLevels
      else delims
    match delims' with
    | [x] => some x.1
    | _ => sniffChunkLoop data chunkLen fuel (k + 1) delims'

/-- `csv.Sniffer().sniff(sample, delimiters=candidates).delimiter` on a
quote-free sample, as an `Option` (`none` models the `Error` the
source catches). -/
def csvSniff (lines : List String) : Option Char :=
  let data := lines.filter (· ≠ "")
  let n := data.length
  let chunkLen := min 10 n
  let numChunks := if chunkLen = 0 then 0 else (n + chunkLen - 1) / chunkLen
  sniffChunkLoop data chunkLen numChunks 1 []

/-- `consistency_score` as the exact pair `(avg, var)` representing the
value `avg - sqrt var` (`-1.0` when there are no lines). -/
def consistency_score (lines : List String) (dlm : Char) : Frac × Frac :=
  if lines.isEmpty then (-(1 : Frac), 0)
  else
    let counts := lines.map fun ln => Frac.ofInt (countChar ln dlm)
    let n : Frac := Frac.ofInt lines.length
    let avg := (counts.foldl (· + ·) 0) / n
    let var := ((counts.map fun c => (c - avg) * (c - avg)).foldl (· + ·) 0) / n
    (avg, var)

/-- Exact decision of `√x ≤ c + √y` for fractions `x, y ≥ 0` with
positive denominators. -/
def sqrtLeAddSqrt (x c y : Frac) : Bool :=
  if Frac.le x 0 then Frac.le 0 c || Frac.le (c * c) y
  else if Frac.lt c 0 then
    Frac.le 0 (y - x - c * c) && Frac.le (4 * (c * c) * x) ((y - x - c * c) * (y - x - c * c))
  else
    Frac.le (x - c * c - y) 0 || Frac.le ((x - c * c - y) * (x - c * c - y)) (4 * (c * c) * y)

/-- Exact decision of `(a₁ - √v₁) ≤ (a₂ - √v₂) + t` on score pairs. -/
def scoreLeAdd (s1 s2 : Frac × Frac) (t : Frac) : Bool :=
  sqrtLeAddSqrt s2.2 (s2.1 + t - s1.1) s1.2

/-- `abs(scores[';'] - scores[',']) <= 0.35` decided exactly. -/
def scoresClose (s1 s2 : Frac × Frac) : Bool :=
  scoreLeAdd s1 s2 (fracOfRatio 35 100) && scoreLeAdd s2 s1 (fracOfRatio 35 100)

/-- `max(scores, key=scores.get)`: first candidate with maximal
consistency score. -/
def pickBestScore (scores : List (Char × (Frac × Frac))) : Char :=
  (scores.foldl
    (fun acc x =>
      match acc with
      | none => some x
      | some b => if !scoreLeAdd x.2 b.2 0 then some x else acc)
    none).map (·.1) |>.getD ','

/-- Python `p.strip().strip('"')`. -/
def stripWSQuotes (s : String) : String :=
  let t := (pyStrip s).data
  ⟨((t.dropWhile (· = '"')).reverse.dropWhile (· = '"')).reverse⟩

/-- The decimal-comma shape `^\(?-?\d{1,3}([.\s]\d{3})*,\d+\)?$`:
consume thousands groups (separator `.` or whitespace followed by
exactly three digits, not followed by a fourth). -/
def dcGroups : List Char → Option (List Char)
  | s :: d1 :: d2 :: d3 :: rest =>
    if (s = '.' || pyWS s) then
      if d1.isDigit && d2.isDigit && d3.isDigit then
        match rest with
        | r :: _ => if r.isDigit then none else dcGroups rest
        | [] => some []
      else none
    else some (s :: d1 :: d2 :: d3 :: rest)
  | s :: rest =>
    if s = '.' || pyWS s then none else some (s :: rest)
  | [] => some []

def matchDecComma (t : String) : Bool :=
  let cs := t.data
  let cs := match cs with | '(' :: r => r | _ => cs
  let cs := match cs with | '-' :: r => r | _ => cs
  let ds := cs.takeWhile Char.isDigit
  let rest := cs.dropWhile Char.isDigit
  if ds.length < 1 || 3 < ds.length then false
  else
    match dcGroups rest with
    | none => false
    | some rest2 =>
      match rest2 with
      | ',' :: fr =>
        let fd := fr.takeWhile Char.isDigit
        let rest3 := fr.dropWhile Char.isDigit
        if fd.isEmpty then false
        else
          match rest3 with
          | [] => true
          | [')'] => true
          | _ => false
      | _ => false

/-- `decimal_comma_density`: tokenize every sample line by `dlm`, strip
whitespace and quotes, and measure the matching fraction. -/
def decimal_comma_density (lines : List String) (dlm : Char) : Frac :=
  let tokens := lines.flatMap fun ln => (pySplit ln dlm).map stripWSQuotes
  if tokens.isEmpty then 0
  else fracOfRatio (tokens.countP matchDecComma) tokens.length

/-- The heuristic stage of `guess_delimiter_euro_aware` (entered when
the sniffer fails): consistency scores per candidate, the euro-aware
tie break between comma and semicolon, else the best scorer. -/
def heuristicDelimiter (lines : List String) : Char :=
  let scores := defaultCandidates.map fun dlm => (dlm, consistency_score lines dlm)
  let best := pickBestScore scores
  let sComma := consistency_score lines ','
  let sSemi := consistency_score lines ';'
  let euroDensity := decimal_comma_density lines ';'
  if scoresClose sSemi sComma && Frac.le (fracOfRatio 6 100) euroDensity then ';'
  else best

/-- The first 30 non-blank lines of the first 16384 characters. -/
def delimiterSampleLines (text : String) : List String :=
  ((pySplitlines ⟨text.data.take 16384⟩).filter fun ln => !isBlank ln).take 30

/-- `guess_delimiter_euro_aware`: sniffer first, heuristic with
euro-aware tie break otherwise. -/
def guess_delimiter_euro_aware (text : String) : Char :=
  let lines := delimiterSampleLines text
  match csvSniff lines with
  | some dlm => dlm
  | none => heuristicDelimiter lines

/-! ## Tables and `read_csv_lenient`

A `pandas` DataFrame as produced by the pipeline: a header (list of
column names, duplicates possible) and rows of cells.  A cell is
`Option String`; `none` is a missing value (`NaN`/`None`). -/

structure PyTable where
  header : List String
  rows : List (List (Option String))
  deriving Repr, DecidableEq

def MAX_ROWS : Nat := 200000
def MAX_COLS : Nat := 300

/-- Stage-6 repair of a single data row against header width `n`:
truncate when too long, pad with empty strings when too short. -/
def repairRow (n : Nat) (r : List String) : List String :=
  if n < r.length then r.take n
  else if r.length < n then r ++ List.replicate (n - r.length) ""
  else r

/-- The 0-based indices (among data rows) of the rows the repairer
touched, in order. -/
def repairedIndicesAux (n : Nat) : Nat → List (List String) → List Nat
  | _, [] => []
  | i, r :: rs =>
    if r.length ≠ n then i :: repairedIndicesAux n (i + 1) rs
    else repairedIndicesAux n (i + 1) rs

def repairedIndices (n : Nat) (rows : List (List String)) : List Nat :=
  repairedIndicesAux n 0 rows

/-- `read_csv_lenient`: parse the text with the csv reader, enforce the
row/column limits, take the first record as header and pad/truncate
every data row to the header's field count.  Returns the DataFrame,
the `import_warning` flag and the repaired-row index list; `.error`
models the `ValueError`s raised on limit violations or empty input. -/
def read_csv_lenient (text : String) (d : Char) :
    Except String (PyTable × Bool × List Nat) :=
  let rows := csvParse text d
  if MAX_ROWS + 1 < rows.length then
    .error "Too many rows."
  else
    match rows with
    | [] => .error "File appears empty or could not be parsed."
    | header :: dataRows =>
      if MAX_COLS < header.length then
        .error "Too many columns."
      else
        let n := header.length
        let fixedTooLong := dataRows.countP (fun r => n < r.length)
        let fixedTooShort := dataRows.countP (fun r => r.length < n)
        let importWarning := decide (0 < fixedTooLong) || decide (0 < fixedTooShort)
        .ok ({ header := header,
               rows := (dataRows.map (repairRow n)).map (·.map some) },
             importWarning,
             repairedIndices n dataRows)

/-! ## Column namer (`snake_case`, `normalize_columns`) -/

/-- The ASCII word characters of the regex class `\w`. -/
def isWordChar (c : Char) : Bool :=
  c.isAlphanum || c = '_'

/-- Python `str.lower()` (ASCII model). -/
def pyLower (s : String) : String :=
  ⟨s.data.map Char.toLower⟩

/-- `re.sub(r"[^\w\s]", "", s)`: drop characters that are neither word
characters nor whitespace. -/
def dropNonWordNonSpace (cs : List Char) : List Char :=
  cs.filter fun c => isWordChar c || pyWS c

/-- `re.sub(r"\s+", "_", s)`: collapse every maximal whitespace run to
a single underscore.  The boolean records whether the previous
character was part of a whitespace run. -/
def collapseWSAux : List Char → Bool → List Char
  | [], _ => []
  | c :: cs, prev =>
    if pyWS c then
      if prev then collapseWSAux cs true else '_' :: collapseWSAux cs true
    else c :: collapseWSAux cs false

def collapseWS (cs : List Char) : List Char := collapseWSAux cs false

/-- `re.sub(r"_+", "_", s)`: collapse every maximal underscore run to a
single underscore. -/
def collapseUSAux : List Char → Bool → List Char
  | [], _ => []
  | c :: cs, prev =>
    if c = '_' then
      if prev then collapseUSAux cs true else '_' :: collapseUSAux cs true
    else c :: collapseUSAux cs false

def collapseUnderscore (cs : List Char) : List Char := collapseUSAux cs false

/-- Python `s.strip("_")`. -/
def stripUnderscore (cs : List Char) : List Char :=
  ((cs.dropWhile (· = '_')).reverse.dropWhile (· = '_')).reverse

/-- `snake_case`: strip, lowercase, drop non-word non-space characters,
collapse whitespace runs to `_`, collapse `_` runs, strip `_`; an empty
result becomes `"col"`. -/
def snake_case (name : String) : String :=
  let s := pyLower (pyStrip name)
  let s := ⟨stripUnderscore (collapseUnderscore (collapseWS (dropNonWordNonSpace s.data)))⟩
  if s = "" then "col" else s

/-- Decimal digits of a natural number, most significant first
(Python's `f"{n}"` formatting of a nonnegative integer).  The first
argument is fuel, always sufficient when it is at least `n`. -/
def natDecimalAux : Nat → Nat → List Char
  | 0, n => [Char.ofNat (48 + n % 10)]
  | fuel + 1, n =>
    if n < 10 then [Char.ofNat (48 + n)]
    else natDecimalAux fuel (n / 10) ++ [Char.ofNat (48 + n % 10)]

def natDecimalL (n : Nat) : List Char := natDecimalAux n n

def natDecimal (n : Nat) : String := ⟨natDecimalL n⟩

/-- Look up a key in an association list (a Python `dict`). -/
def assocGet (m : List (String × Nat)) (k : String) : Option Nat :=
  (m.find? (fun p => p.1 = k)).map (·.2)

def assocSet (m : List (String × Nat)) (k : String) (v : Nat) : List (String × Nat) :=
  match m with
  | [] => [(k, v)]
  | (k', v') :: rest => if k' = k then (k, v) :: rest else (k', v') :: assocSet rest k v

/-- The deduplication loop of `normalize_columns`: the first occurrence
of a name is kept, the `m`-th occurrence (`m ≥ 2`) becomes
`name_m`. -/
def dedupNamesAux : List (String × Nat) → List String → List String
  | _, [] => []
  | seen, c :: cs =>
    match assocGet seen c with
    | none => c :: dedupNamesAux (assocSet seen c 1) cs
    | some k =>
      (c ++ "_" ++ natDecimal (k + 1)) :: dedupNamesAux (assocSet seen c (k + 1)) cs

def dedupNames (cols : List String) : List String :=
  dedupNamesAux [] cols

/-- `normalize_columns`: snake-case each header name, then apply the
suffixing deduplication pass; the header is replaced only when the
result differs (the log flags the change). -/
def normalize_columns (t : PyTable) : PyTable × Bool :=
  let uniqueCols := dedupNames (t.header.map snake_case)
  if uniqueCols ≠ t.header then
    ({ t with header := uniqueCols }, true)
  else (t, false)

/-! ## Cell whitespace trim and duplicate-row removal -/

/-- `trim_whitespace_df` acting on one cell: strings are stripped,
missing values kept (every column of the parsed table is an
object-dtype column, so every column is processed). -/
def trimCell : Option String → Option String
  | none => none
  | some s => some (pyStrip s)

def trim_whitespace_df (t : PyTable) : PyTable :=
  { t with rows := t.rows.map (·.map trimCell) }

/-- A row `pandas.dropna(how="all")` removes: every cell missing.
(A cell holding the empty string is *not* missing.) -/
def rowAllMissing (r : List (Option String)) : Bool :=
  r.all (· = none)

/-- `pandas.DataFrame.drop_duplicates()` keeping first occurrences:
`seen` is the list of row values already kept. -/
def dropDuplicatesAux : List (List (Option String)) → List (List (Option String)) → List (List (Option String))
  | _, [] => []
  | seen, r :: rs =>
    if seen.contains r then dropDuplicatesAux seen rs
    else r :: dropDuplicatesAux (seen ++ [r]) rs

def dropDuplicates (rows : List (List (Option String))) : List (List (Option String)) :=
  dropDuplicatesAux [] rows

/-- `remove_duplicates_and_empty_rows`: drop the rows whose cells are
all missing, then drop exact duplicate rows keeping the first
occurrence.  Also returns the two removal counts that go to the log. -/
def remove_duplicates_and_empty_rows (t : PyTable) : PyTable × Nat × Nat :=
  let kept := t.rows.filter (fun r => !rowAllMissing r)
  let removedEmpty := t.rows.length - kept.length
  let deduped := dropDuplicates kept
  let removedDupes := kept.length - deduped.length
  ({ t with rows := deduped }, removedEmpty, removedDupes)

/-- `clean_csv`: column naming, whitespace trim, duplicate removal. -/
def clean_csv (t : PyTable) : PyTable :=
  (remove_duplicates_and_empty_rows (trim_whitespace_df (normalize_columns t).1)).1

/-! ## CSV output (`DataFrame.to_csv` with `QUOTE_MINIMAL`,
`lineterminator="\n"`, `sep=d`, `index=False`) -/

/-- A field must be quoted when it contains the delimiter, a quote, or
a character of the line terminator `"\n"`. -/
def fieldNeedsQuote (d : Char) (f : String) : Bool :=
  f.data.any fun c => c = d || c = '"' || c = '\n'

/-- Double every quote character (the writer's escape rule). -/
def escapeQuotes (cs : List Char) : List Char :=
  cs.flatMap fun c => if c = '"' then ['"', '"'] else [c]

def writeField (d : Char) (f : String) : String :=
  if fieldNeedsQuote d f then ⟨'"' :: escapeQuotes f.data ++ ['"']⟩ else f

/-- One output row: fields joined by the delimiter; a row consisting of
a single empty unquoted field is written quoted (`""`), so that it does
not read back as an empty record. -/
def writeRow (d : Char) (r : List String) : String :=
  match r with
  | [f] => if f = "" then "\"\"" else writeField d f
  | _ => String.intercalate ⟨[d]⟩ (r.map (writeField d))

/-- `to_csv`: header row then data rows, each terminated by `"\n"`;
missing cells are written as the empty string. -/
def toCsv (t : PyTable) (d : Char) : String :=
  String.join ((writeRow d t.header :: t.rows.map (fun r => writeRow d (r.map (fun c => c.getD "")))).map (· ++ "\n"))

/-! ## Numeric normalization (`normalize_numeric_strings_df`)

`to_float_safe` is Python-float-free here: the parsed value of a
decimal numeral is represented exactly (`Frac`). -/

def powTen : Nat → Int
  | 0 => 1
  | n + 1 => 10 * powTen n

def digitsVal (cs : List Char) : Int :=
  cs.foldl (fun a c => a * 10 + ((c.toNat : Int) - 48)) 0

/-- Python `float(t)` on the strings reachable in `to_float_safe` after
its regex match and separator cleanup: an optional sign, an integer
part, an optional fractional part; anything else (a stray parenthesis
survives the cleanup) raises, i.e. `none`. -/
def floatParse (cs : List Char) : Option Frac :=
  let (neg, cs) := match cs with
    | '-' :: r => (true, r)
    | '+' :: r => (false, r)
    | _ => (false, cs)
  let ip := cs.takeWhile Char.isDigit
  let rest := cs.dropWhile Char.isDigit
  match rest with
  | [] =>
    if ip.isEmpty then none
    else some ⟨(if neg then -1 else 1) * digitsVal ip, 1⟩
  | '.' :: fr =>
    let fd := fr.takeWhile Char.isDigit
    let rest2 := fr.dropWhile Char.isDigit
    if rest2.isEmpty && !(ip.isEmpty && fd.isEmpty) then
      some ⟨(if neg then -1 else 1) * (digitsVal ip * powTen fd.length + digitsVal fd),
            powTen fd.length⟩
    else none
  | _ => none

/-- The US shape `^\(?-?\d{1,3}(,\d{3})*(\.\d+)?\)?$`: thousands
groups are a comma and exactly three digits, not followed by a fourth
digit. -/
def usGroups : List Char → Option (List Char)
  | ',' :: d1 :: d2 :: d3 :: rest =>
    if d1.isDigit && d2.isDigit && d3.isDigit then
      match rest with
      | r :: _ => if r.isDigit then none else usGroups rest
      | [] => some []
    else none
  | ',' :: _ => none
  | cs => some cs

def matchUSNum (t : String) : Bool :=
  let cs := t.data
  let cs := match cs with | '(' :: r => r | _ => cs
  let cs := match cs with | '-' :: r => r | _ => cs
  let ds := cs.takeWhile Char.isDigit
  let rest := cs.dropWhile Char.isDigit
  if ds.length < 1 || 3 < ds.length then false
  else
    match usGroups rest with
    | none => false
    | some rest2 =>
      match rest2 with
      | '.' :: fr =>
        let fd := fr.takeWhile Char.isDigit
        let r4 := fr.dropWhile Char.isDigit
        if fd.isEmpty then false else decide (r4 = []) || decide (r4 = [')'])
      | r => decide (r = []) || decide (r = [')'])

/-- `to_float_safe`: strip; parenthesized means negative; remove
currency symbols; a decimal-comma (`euro_re`) match drops spaces and
dots and turns the comma into a decimal point, a thousands-comma
(`us_re`) match drops the commas; then parse as a float. -/
def to_float_safe (s : String) : Option Frac :=
  let t := pyStrip s
  if t = "" then none
  else
    let neg := t.data.head? = some '(' && t.data.getLast? = some ')'
    let t1 := if neg then pyStrip ⟨(t.data.drop 1).dropLast⟩ else t
    let t2 := pyStrip ⟨t1.data.filter fun c => c ≠ '$' && c ≠ '€' && c ≠ '£'⟩
    let parsed :=
      if matchDecComma t2 then
        floatParse (((t2.data.filter (· ≠ ' ')).filter (· ≠ '.')).map
          fun c => if c = ',' then '.' else c)
      else if matchUSNum t2 then
        floatParse (t2.data.filter (· ≠ ','))
      else none
    parsed.map fun v => if neg then -v else v

/-- The conversion applied to every cell of a qualifying column
(`s.map(lambda x: to_float_safe(x) if str(x).strip() != "" else None)`;
a missing cell prints as `"nan"`, which fails to parse). -/
def cellToFloat : Option String → Option Frac
  | none => none
  | some s => if pyStrip s ≠ "" then to_float_safe s else none

/-- The sampled non-empty values of a column
(`s.dropna().map(strip).loc[≠ ""]`). -/
def columnNonEmpty (cells : List (Option String)) : List String :=
  ((cells.filterMap id).map pyStrip).filter (· ≠ "")

/-- Whether a textual column is converted: at least 5 sampled non-empty
values and a parse success rate of at least 85%. -/
def columnQualifies (cells : List (Option String)) : Bool :=
  let ne := columnNonEmpty cells
  if ne.isEmpty then false
  else
    let succ := ne.countP fun v => (to_float_safe v).isSome
    Frac.le (fracOfRatio 85 100) (fracOfRatio succ ne.length) && decide (5 ≤ ne.length)

/-- `normalize_numeric_strings_df` on one (object-dtype) column:
`some` is the converted numeric column, `none` leaves the column
untouched. -/
def normalizeNumericCol (cells : List (Option String)) : Option (List (Option Frac)) :=
  if columnQualifies cells then some (cells.map cellToFloat) else none

/-- The whole-frame pass, column by column (the frame is keyed by
column name; the model is positional and matches the source when the
column names are distinct). -/
def normalize_numeric_strings_df
    (cols : List (String × List (Option String))) :
    List (String × (List (Option String) ⊕ List (Option Frac))) :=
  cols.map fun p =>
    match normalizeNumericCol p.2 with
    | some numCol => (p.1, Sum.inr numCol)
    | none => (p.1, Sum.inl p.2)

/-! ## Near-duplicate analysis (`analyze_near_duplicates`) -/

def containsSub (p : List Char) : List Char → Bool
  | [] => p.isEmpty
  | c :: cs => p.isPrefixOf (c :: cs) || containsSub p cs

def strHas (s : String) (p : String) : Bool := containsSub p.data s.data

def strEndsWith (s : String) (p : String) : Bool :=
  p.data.reverse.isPrefixOf s.data.reverse

def strStartsWith (s : String) (p : String) : Bool := p.data.isPrefixOf s.data

/-- `_should_ignore_col`: identifier-, uuid-, transaction-, reference-,
time- and balance-like column names are excluded from comparison. -/
def shouldIgnoreCol (col : String) : Bool :=
  let s := pyStrip (pyLower col)
  decide (s = "id") || strEndsWith s "_id" || strStartsWith s "id_" || strHas s "_id_" ||
  strHas s "uuid" || strHas s "guid" ||
  strHas s "transaction" || strHas s "txn" ||
  strHas s "reference" || decide (s = "ref") || strHas s "ref_" || strEndsWith s "_ref" ||
  strHas s "date" || strHas s "time" || strHas s "timestamp" || strEndsWith s "_at" ||
  strHas s "balance" || strHas s "running_total" || strHas s "remaining"

/-- `re.sub(r"\s+", " ", s)` (collapse whitespace runs to one space). -/
def collapseWSSpaceAux : List Char → Bool → List Char
  | [], _ => []
  | c :: cs, prev =>
    if pyWS c then
      if prev then collapseWSSpaceAux cs true else ' ' :: collapseWSSpaceAux cs true
    else c :: collapseWSSpaceAux cs false

/-- `_normalize_text_for_compare` applied to a filled cell. -/
def normalizeForCompare (cell : Option String) : String :=
  pyLower (pyStrip ⟨collapseWSSpaceAux (cell.getD "").data false⟩)

/-- The comparison key of a row: normalized values of the compare
columns (positions of header names `_should_ignore_col` rejects). -/
def compareKey (header : List String) (r : List (Option String)) : List String :=
  ((header.zip r).filter fun p => !shouldIgnoreCol p.1).map fun p => normalizeForCompare p.2

/-- `comp.duplicated(keep="first")` over compare keys: the mask of rows
equal to some earlier row. -/
def dupMaskAux (seen : List (List String)) : List (List String) → List Bool
  | [] => []
  | k :: ks =>
    if seen.contains k then true :: dupMaskAux seen ks
    else false :: dupMaskAux (seen ++ [k]) ks

/-- Near-duplicate removal (`df2.loc[~dup_mask]`): keep the rows whose
compare key was not seen before; with no compare columns or an empty
table nothing is removed. -/
def removeNearDuplicates (t : PyTable) : PyTable :=
  let compareCols := t.header.filter fun c => !shouldIgnoreCol c
  if compareCols.isEmpty || t.rows.isEmpty then t
  else
    let mask := dupMaskAux [] (t.rows.map (compareKey t.header))
    { t with rows := ((t.rows.zip mask).filter fun p => !p.2).map (·.1) }

/-! ## The composed pipeline (the `upload` route's repair chain with
near-duplicate analysis and numeric normalization disabled) -/

structure PipelineOutput where
  table : PyTable
  importWarning : Bool
  repairedIdx : List Nat
  delim : Char
  outText : String
  deriving Repr, DecidableEq

/-- `clean_csv` as the route executes it.  `trim_whitespace_df` iterates
`for col in df.columns: s = df[col]; s.dtype`, accessing columns by
*label*: when `normalize_columns` has left duplicate labels, `df[col]`
for a duplicated label is a `DataFrame`, which has no `.dtype`, and the
unhandled `AttributeError` aborts the request (only `read_csv_lenient`
is wrapped in `try/except`, and only for `ValueError`).  When the
labels are unique, label access coincides with positional access and
the remaining stages run as `clean_csv`. -/
def clean_csv_checked (t : PyTable) : Except String PyTable :=
  if ((normalize_columns t).1.header).Nodup then .ok (clean_csv t)
  else .error "AttributeError: 'DataFrame' object has no attribute 'dtype'"

/-- `repair`: decode, normalize line endings, stitch quoted records,
infer the delimiter, locate the header, parse leniently with row-shape
repair, clean (column names, whitespace, duplicate rows), and write
the output file. -/
def repair (data : List Byte) : Except String PipelineOutput :=
  match decode_text_with_fallback data with
  | none => .error "Could not decode file using common encodings"
  | some (text, _enc) =>
    let stitched := stitch_csv_records (normalizeNewlines text)
    let dlm := guess_delimiter_euro_aware stitched
    let text2 := detect_and_strip_preamble stitched dlm
    match read_csv_lenient text2 dlm with
    | .error e => .error e
    | .ok (df, warn, idxs) =>
      match clean_csv_checked df with
      | .error e => .error e
      | .ok t1 =>
        .ok { table := t1, importWarning := warn, repairedIdx := idxs,
              delim := dlm, outText := toCsv t1 dlm }

/-- UTF-8 encoding (how the output file's bytes are produced). -/
def utf8EncodeChar (c : Char) : List Byte :=
  let n := c.toNat
  if n < 0x80 then [Fin.ofNat n]
  else if n < 0x800 then [Fin.ofNat (0xC0 + n / 0x40), Fin.ofNat (0x80 + n % 0x40)]
  else if n < 0x10000 then
    [Fin.ofNat (0xE0 + n / 0x1000), Fin.ofNat (0x80 + n / 0x40 % 0x40),
     Fin.ofNat (0x80 + n % 0x40)]
  else
    [Fin.ofNat (0xF0 + n / 0x40000), Fin.ofNat (0x80 + n / 0x1000 % 0x40),
     Fin.ofNat (0x80 + n / 0x40 % 0x40), Fin.ofNat (0x80 + n % 0x40)]

def utf8Encode (s : String) : List Byte :=
  s.data.flatMap utf8EncodeChar

/-- A field the writer emits verbatim and the reader recovers exactly:
nonempty, already stripped, and free of quotes, delimiters and line
breaks. -/
def plainField (d : Char) (s : String) : Bool :=
  !s.isEmpty && decide (pyStrip s = s)
    && s.data.all fun c => !pyLineBreak c && !(c = d) && !(c = '"')

/-! # Claims -/

/-! ## C10: the decoder never fails -/

theorem latin1_total (data : List Byte) : (latin1Decode data).length = data.length := by
  simp [latin1Decode]

/-- C10: for every byte sequence the decoder returns successfully with
one of the four candidate encodings (`utf-8-sig`, `utf-8`, `cp1252`,
`latin-1`): the final fallback Latin-1 strictly decodes every byte
sequence, so the decoder's failure branch — the spec's fatal
`DecodeError` — is unreachable. -/
theorem decoder_never_fails (data : List Byte) :
    ∃ t e, decode_text_with_fallback data = some (t, e) ∧
      e ∈ ["utf-8-sig", "utf-8", "cp1252", "latin-1"] := by
  unfold decode_text_with_fallback
  rcases utf8SigDecode data with _ | cs1
  · rcases utf8Decode data with _ | cs2
    · rcases cp1252Decode data with _ | cs3
      · exact ⟨_, _, rfl, by simp⟩
      · exact ⟨_, _, rfl, by simp⟩
    · exact ⟨_, _, rfl, by simp⟩
  · exact ⟨_, _, rfl, by simp⟩

/-! ## C2: the row-shape repairer -/

theorem repairRow_eq (n : Nat) (r : List String) :
    repairRow n r =
      if n < r.length then r.take n else r ++ List.replicate (n - r.length) "" := by
  unfold repairRow
  split
  · rfl
  · split
    · rfl
    · rename_i h1 h2
      have : r.length = n := by omega
      simp [this]

theorem repairRow_length (n : Nat) (r : List String) :
    (repairRow n r).length = n := by
  rw [repairRow_eq]
  split
  · simp; omega
  · simp; omega

theorem mem_repairedIndicesAux (n : Nat) :
    ∀ (rows : List (List String)) (k j : Nat),
      j ∈ repairedIndicesAux n k rows ↔
      ∃ r, k ≤ j ∧ rows.get? (j - k) = some r ∧ r.length ≠ n := by
  intro rows
  induction rows with
  | nil => intro k j; simp [repairedIndicesAux]
  | cons r rs ih =>
    intro k j
    unfold repairedIndicesAux
    split
    · rename_i hne
      simp only [List.mem_cons, ih (k + 1) j]
      constructor
      · rintro (rfl | ⟨r', h1, h2, h3⟩)
        · exact ⟨r, le_rfl, by simp, hne⟩
        · exact ⟨r', by omega, by
            have : j - k = (j - (k + 1)) + 1 := by omega
            simpa [this] using h2, h3⟩
      · rintro ⟨r', h1, h2, h3⟩
        by_cases hjk : j = k
        · left; exact hjk
        · right
          refine ⟨r', by omega, ?_, h3⟩
          have : j - k = (j - (k + 1)) + 1 := by omega
          rw [this] at h2
          simpa using h2
    · rename_i hne
      simp only [ih (k + 1) j]
      constructor
      · rintro ⟨r', h1, h2, h3⟩
        exact ⟨r', by omega, by
          have : j - k = (j - (k + 1)) + 1 := by omega
          simpa [this] using h2, h3⟩
      · rintro ⟨r', h1, h2, h3⟩
        by_cases hjk : j = k
        · subst hjk
          simp at h2
          cases h2
          simp at hne
          omega
        · refine ⟨r', by omega, ?_, h3⟩
          have : j - k = (j - (k + 1)) + 1 := by omega
          rw [this] at h2
          simpa using h2

theorem repairedIndicesAux_nil_iff (n : Nat) :
    ∀ (rows : List (List String)) (k : Nat),
      repairedIndicesAux n k rows = [] ↔ ∀ r ∈ rows, r.length = n := by
  intro rows
  induction rows with
  | nil => intro k; simp [repairedIndicesAux]
  | cons r rs ih =>
    intro k
    unfold repairedIndicesAux
    split
    · rename_i hne
      simp only [List.mem_cons]
      constructor
      · intro h; cases h
      · intro h; exact absurd (h r (Or.inl rfl)) hne
    · rename_i hne
      simp only [not_not] at hne
      simp [ih (k + 1), hne]

/-- The shape of a successful lenient read. -/
theorem read_csv_lenient_ok (text : String) (d : Char) (df : PyTable)
    (warn : Bool) (idxs : List Nat)
    (h : read_csv_lenient text d = .ok (df, warn, idxs)) :
    ∃ dataRows, csvParse text d = df.header :: dataRows ∧
      df.rows = (dataRows.map (repairRow df.header.length)).map (·.map some) ∧
      idxs = repairedIndices df.header.length dataRows ∧
      warn = (decide (0 < dataRows.countP fun r => df.header.length < r.length) ||
        decide (0 < dataRows.countP fun r => r.length < df.header.length)) := by
  unfold read_csv_lenient at h
  dsimp only at h
  split at h
  · cases h
  · split at h
    · cases h
    · rename_i rows hrows header dataRows heq
      split at h
      · cases h
      · rename_i hcols
        simp only [Except.ok.injEq, Prod.mk.injEq] at h
        obtain ⟨hdf, hw, hi⟩ := h
        subst hdf
        exact ⟨dataRows, heq, rfl, hi.symm, hw.symm⟩

/-- C2: for every parsed input with header field count `N`, the repairer
truncates each data row longer than `N` to its first `N` fields, pads
each shorter one with empty strings up to `N`, leaves a row of exactly
`N` fields untouched, records the 0-based data-row index exactly when a
repair applied, and sets `import_warning` iff at least one repair
occurred. -/
theorem row_repair_exact (text : String) (d : Char) (df : PyTable)
    (warn : Bool) (idxs : List Nat)
    (h : read_csv_lenient text d = .ok (df, warn, idxs)) :
    ∃ dataRows, csvParse text d = df.header :: dataRows ∧
      (∀ i r, dataRows[i]? = some r →
        df.rows[i]? = some
          ((if df.header.length < r.length then r.take df.header.length
            else r ++ List.replicate (df.header.length - r.length) "").map some) ∧
        (i ∈ idxs ↔ r.length ≠ df.header.length)) ∧
      (warn = true ↔ idxs ≠ []) := by
  obtain ⟨dataRows, hparse, hrows, hidx, hwarn⟩ := read_csv_lenient_ok text d df warn idxs h
  refine ⟨dataRows, hparse, ?_, ?_⟩
  · intro i r hget
    constructor
    · rw [hrows]
      simp [List.getElem?_map, hget, repairRow_eq]
    · rw [hidx]
      unfold repairedIndices
      rw [mem_repairedIndicesAux]
      constructor
      · rintro ⟨r', h1, h2, h3⟩
        simp only [Nat.sub_zero, List.get?_eq_getElem?] at h2
        rw [hget] at h2
        cases h2
        exact h3
      · intro hne
        exact ⟨r, Nat.zero_le i, by simpa [List.get?_eq_getElem?] using hget, hne⟩
  · rw [hwarn, hidx]
    unfold repairedIndices
    constructor
    · intro hw hnil
      rw [repairedIndicesAux_nil_iff] at hnil
      simp only [Bool.or_eq_true, decide_eq_true_eq, List.countP_pos] at hw
      rcases hw with ⟨r, hr, hlt⟩ | ⟨r, hr, hlt⟩ <;>
        exact absurd (hnil r hr) (by omega)
    · intro hne
      by_contra hw
      simp only [Bool.or_eq_true, decide_eq_true_eq, List.countP_pos, not_or,
        not_exists, not_and, not_lt] at hw
      apply hne
      rw [repairedIndicesAux_nil_iff]
      intro r hr
      have h1 := hw.1 r hr
      have h2 := hw.2 r hr
      omega

/-- Witness for C2 at the spec's own example: header `a,b,c`; the row
`1,2,3,4` is truncated and recorded, `5,6` is padded and recorded,
`7,8,9` is untouched and not recorded. -/
theorem row_repair_exact_witness :
    ∃ dataRows, csvParse "a,b,c\n1,2,3,4\n5,6\n7,8,9" ',' =
        (PyTable.mk ["a", "b", "c"]
          [[some "1", some "2", some "3"], [some "5", some "6", some ""],
           [some "7", some "8", some "9"]]).header :: dataRows ∧
      (∀ i r, dataRows[i]? = some r →
        (PyTable.mk ["a", "b", "c"]
          [[some "1", some "2", some "3"], [some "5", some "6", some ""],
           [some "7", some "8", some "9"]]).rows[i]? = some
          ((if (3 : Nat) < r.length then r.take 3
            else r ++ List.replicate (3 - r.length) "").map some) ∧
        (i ∈ [0, 1] ↔ r.length ≠ 3)) ∧
      (true = true ↔ ([0, 1] : List Nat) ≠ []) :=
  row_repair_exact "a,b,c\n1,2,3,4\n5,6\n7,8,9" ','
    (PyTable.mk ["a", "b", "c"]
      [[some "1", some "2", some "3"], [some "5", some "6", some ""],
       [some "7", some "8", some "9"]]) true [0, 1] (by rfl)

/-! ## C1: the row-shape invariant -/

theorem dedupNamesAux_length : ∀ (cols : List String) (seen : List (String × Nat)),
    (dedupNamesAux seen cols).length = cols.length := by
  intro cols
  induction cols with
  | nil => intro seen; rfl
  | cons c cs ih =>
    intro seen
    unfold dedupNamesAux
    split <;> simp [ih]

theorem normalize_columns_header_length (t : PyTable) :
    (normalize_columns t).1.header.length = t.header.length := by
  unfold normalize_columns
  dsimp only
  split <;> simp [dedupNames, dedupNamesAux_length]

theorem normalize_columns_rows (t : PyTable) :
    (normalize_columns t).1.rows = t.rows := by
  unfold normalize_columns
  dsimp only
  split <;> rfl

theorem dropDuplicatesAux_cons (seen : List (List (Option String)))
    (hd : List (Option String)) (tl : List (List (Option String))) :
    dropDuplicatesAux seen (hd :: tl) =
      if seen.contains hd then dropDuplicatesAux seen tl
      else hd :: dropDuplicatesAux (seen ++ [hd]) tl := rfl

theorem mem_dropDuplicatesAux :
    ∀ (rows seen : List (List (Option String))) (r : List (Option String)),
      r ∈ dropDuplicatesAux seen rows → r ∈ rows := by
  intro rows
  induction rows with
  | nil => intro seen r h; simp [dropDuplicatesAux] at h
  | cons hd tl ih =>
    intro seen r h
    rw [dropDuplicatesAux_cons] at h
    by_cases hc : seen.contains hd
    · rw [if_pos hc] at h
      exact List.mem_cons_of_mem hd (ih _ r h)
    · rw [if_neg hc] at h
      rcases List.mem_cons.mp h with h0 | h'
      · rw [h0]; exact List.mem_cons_self hd tl
      · exact List.mem_cons_of_mem hd (ih _ r h')

theorem removeNearDuplicates_header (t : PyTable) :
    (removeNearDuplicates t).header = t.header := by
  unfold removeNearDuplicates
  dsimp only
  split <;> rfl

theorem mem_removeNearDuplicates_rows (t : PyTable) (r : List (Option String))
    (h : r ∈ (removeNearDuplicates t).rows) : r ∈ t.rows := by
  unfold removeNearDuplicates at h
  dsimp only at h
  split at h
  · exact h
  · simp only [List.mem_map] at h
    obtain ⟨⟨r0, b⟩, hmem, rfl⟩ := h
    exact (List.mem_zip (List.mem_of_mem_filter hmem)).1

/-- C1: every row of the table produced by stage 6 (the lenient
row-shape repairer) has exactly as many cells as the header has
columns, and the invariant persists to the final output table: through
`clean_csv` (column naming, whitespace trim, duplicate removal),
through near-duplicate removal, and through numeric normalization
(which maps a column cell-for-cell). -/
theorem row_shape_invariant (text : String) (d : Char) (df : PyTable)
    (warn : Bool) (idxs : List Nat)
    (h : read_csv_lenient text d = .ok (df, warn, idxs)) :
    (∀ r ∈ df.rows, r.length = df.header.length) ∧
    ((clean_csv df).header.length = df.header.length ∧
      ∀ r ∈ (clean_csv df).rows, r.length = (clean_csv df).header.length) ∧
    (∀ r ∈ (removeNearDuplicates (clean_csv df)).rows,
      r.length = (removeNearDuplicates (clean_csv df)).header.length) ∧
    (∀ cells out, normalizeNumericCol cells = some out → out.length = cells.length) := by
  obtain ⟨dataRows, hparse, hrows, hidx, hwarn⟩ := read_csv_lenient_ok text d df warn idxs h
  have stage6 : ∀ r ∈ df.rows, r.length = df.header.length := by
    intro r hr
    rw [hrows] at hr
    simp only [List.mem_map] at hr
    obtain ⟨r1, ⟨r0, _, rfl⟩, rfl⟩ := hr
    simp [repairRow_length]
  have hclean_hdr : (clean_csv df).header.length = df.header.length := by
    unfold clean_csv remove_duplicates_and_empty_rows trim_whitespace_df
    simpa using normalize_columns_header_length df
  have hclean_rows : ∀ r ∈ (clean_csv df).rows, r.length = (clean_csv df).header.length := by
    intro r hr
    rw [hclean_hdr]
    unfold clean_csv remove_duplicates_and_empty_rows at hr
    simp only at hr
    have hr2 := mem_dropDuplicatesAux _ _ _ hr
    have hr3 := List.mem_of_mem_filter hr2
    unfold trim_whitespace_df at hr3
    simp only [List.mem_map] at hr3
    obtain ⟨r0, hr0, rfl⟩ := hr3
    rw [normalize_columns_rows] at hr0
    simpa using stage6 r0 hr0
  refine ⟨stage6, ⟨hclean_hdr, hclean_rows⟩, ?_, ?_⟩
  · intro r hr
    rw [removeNearDuplicates_header]
    exact hclean_rows r (mem_removeNearDuplicates_rows _ r hr)
  · intro cells out hout
    unfold normalizeNumericCol at hout
    split at hout
    · cases hout
      simp
    · cases hout

/-- Witness for C1 at a concrete accepted document. -/
theorem row_shape_invariant_witness :
    (∀ r ∈ (PyTable.mk ["a", "b", "c"]
        [[some "1", some "2", some "3"], [some "5", some "6", some ""]]).rows,
      r.length = (PyTable.mk ["a", "b", "c"]
        [[some "1", some "2", some "3"], [some "5", some "6", some ""]]).header.length) ∧
    ((clean_csv (PyTable.mk ["a", "b", "c"]
        [[some "1", some "2", some "3"], [some "5", some "6", some ""]])).header.length =
      (PyTable.mk ["a", "b", "c"]
        [[some "1", some "2", some "3"], [some "5", some "6", some ""]]).header.length ∧
      ∀ r ∈ (clean_csv (PyTable.mk ["a", "b", "c"]
        [[some "1", some "2", some "3"], [some "5", some "6", some ""]])).rows,
        r.length = (clean_csv (PyTable.mk ["a", "b", "c"]
          [[some "1", some "2", some "3"], [some "5", some "6", some ""]])).header.length) ∧
    (∀ r ∈ (removeNearDuplicates (clean_csv (PyTable.mk ["a", "b", "c"]
        [[some "1", some "2", some "3"], [some "5", some "6", some ""]]))).rows,
      r.length = (removeNearDuplicates (clean_csv (PyTable.mk ["a", "b", "c"]
        [[some "1", some "2", some "3"], [some "5", some "6", some ""]]))).header.length) ∧
    (∀ cells out, normalizeNumericCol cells = some out → out.length = cells.length) :=
  row_shape_invariant "a,b,c\n1,2,3,4\n5,6" ','
    (PyTable.mk ["a", "b", "c"]
      [[some "1", some "2", some "3"], [some "5", some "6", some ""]])
    true [0, 1] (by rfl)

/-! ## C9: the exact deduplication stage -/

/-- The 0-based position of the first occurrence of a row. -/
def firstIdx (r : List (Option String)) : List (List (Option String)) → Nat
  | [] => 0
  | x :: xs => if x = r then 0 else firstIdx r xs + 1

theorem firstIdx_cons_self (r : List (Option String))
    (l : List (List (Option String))) : firstIdx r (r :: l) = 0 := by
  simp [firstIdx]

theorem firstIdx_cons_ne (r x : List (Option String))
    (l : List (List (Option String))) (h : x ≠ r) :
    firstIdx r (x :: l) = firstIdx r l + 1 := by
  simp [firstIdx, h]

theorem dropDuplicatesAux_sublist :
    ∀ (l seen : List (List (Option String))),
      (dropDuplicatesAux seen l).Sublist l := by
  intro l
  induction l with
  | nil => intro seen; simp [dropDuplicatesAux]
  | cons hd tl ih =>
    intro seen
    rw [dropDuplicatesAux_cons]
    split
    · exact (ih seen).cons hd
    · exact (ih (seen ++ [hd])).cons₂ hd

theorem mem_dropDuplicatesAux_iff :
    ∀ (l seen : List (List (Option String))) (r : List (Option String)),
      r ∈ dropDuplicatesAux seen l ↔ r ∈ l ∧ r ∉ seen := by
  intro l
  induction l with
  | nil => intro seen r; simp [dropDuplicatesAux]
  | cons hd tl ih =>
    intro seen r
    rw [dropDuplicatesAux_cons]
    split
    · rename_i hc
      have hhd : hd ∈ seen := List.elem_iff.mp hc
      rw [ih]
      constructor
      · rintro ⟨h1, h2⟩; exact ⟨List.mem_cons_of_mem hd h1, h2⟩
      · rintro ⟨h1, h2⟩
        rcases List.mem_cons.mp h1 with h0 | h1'
        · exact absurd (h0 ▸ hhd) h2
        · exact ⟨h1', h2⟩
    · rename_i hc
      have hhd : hd ∉ seen := fun hmem => hc (List.elem_iff.mpr hmem)
      constructor
      · intro h
        rcases List.mem_cons.mp h with h0 | h'
        · rw [h0]; exact ⟨List.mem_cons_self hd tl, hhd⟩
        · obtain ⟨h1, h2⟩ := (ih (seen ++ [hd]) r).mp h'
          refine ⟨List.mem_cons_of_mem hd h1, fun hr => h2 ?_⟩
          simp [hr]
      · rintro ⟨h1, h2⟩
        by_cases hrh : r = hd
        · rw [hrh]; exact List.mem_cons_self _ _
        · rcases List.mem_cons.mp h1 with h0 | h1'
          · exact absurd h0 hrh
          · refine List.mem_cons_of_mem hd ((ih (seen ++ [hd]) r).mpr ⟨h1', ?_⟩)
            simp only [List.mem_append, List.mem_singleton]
            rintro (h | h)
            · exact h2 h
            · exact hrh h

theorem dropDuplicatesAux_nodup :
    ∀ (l seen : List (List (Option String))),
      (dropDuplicatesAux seen l).Nodup := by
  intro l
  induction l with
  | nil => intro seen; simp [dropDuplicatesAux]
  | cons hd tl ih =>
    intro seen
    rw [dropDuplicatesAux_cons]
    split
    · exact ih seen
    · refine List.Nodup.cons ?_ (ih (seen ++ [hd]))
      intro hmem
      have := (mem_dropDuplicatesAux_iff tl (seen ++ [hd]) hd).mp hmem
      simp at this

theorem dropDuplicatesAux_pairwise :
    ∀ (l seen : List (List (Option String))),
      (dropDuplicatesAux seen l).Pairwise
        (fun r s => firstIdx r l < firstIdx s l) := by
  intro l
  induction l with
  | nil => intro seen; simp [dropDuplicatesAux]
  | cons hd tl ih =>
    intro seen
    rw [dropDuplicatesAux_cons]
    split
    · rename_i hc
      have hhd : hd ∈ seen := List.elem_iff.mp hc
      refine (ih seen).imp_of_mem ?_
      intro r s hr hs hlt
      have hrne : r ≠ hd := by
        rintro rfl
        exact ((mem_dropDuplicatesAux_iff tl seen r).mp hr).2 hhd
      have hsne : s ≠ hd := by
        rintro rfl
        exact ((mem_dropDuplicatesAux_iff tl seen s).mp hs).2 hhd
      rw [firstIdx_cons_ne r hd tl (fun h => hrne h.symm),
        firstIdx_cons_ne s hd tl (fun h => hsne h.symm)]
      omega
    · rename_i hc
      refine List.Pairwise.cons ?_ ?_
      · intro s hs
        have hsne : s ≠ hd := by
          intro he
          rw [he] at hs
          have := ((mem_dropDuplicatesAux_iff tl (seen ++ [hd]) hd).mp hs).2
          simp at this
        rw [firstIdx_cons_self, firstIdx_cons_ne s hd tl (fun h => hsne h.symm)]
        omega
      · refine (ih (seen ++ [hd])).imp_of_mem ?_
        intro r s hr hs hlt
        have hrne : r ≠ hd := by
          intro he
          rw [he] at hr
          have := ((mem_dropDuplicatesAux_iff tl (seen ++ [hd]) hd).mp hr).2
          simp at this
        have hsne : s ≠ hd := by
          intro he
          rw [he] at hs
          have := ((mem_dropDuplicatesAux_iff tl (seen ++ [hd]) hd).mp hs).2
          simp at this
        rw [firstIdx_cons_ne r hd tl (fun h => hrne h.symm),
          firstIdx_cons_ne s hd tl (fun h => hsne h.symm)]
        omega

theorem firstIdx_filter_lt (p : List (Option String) → Bool) :
    ∀ (rows : List (List (Option String))) (r s : List (Option String)),
      r ∈ rows.filter p → s ∈ rows.filter p →
      firstIdx r (rows.filter p) < firstIdx s (rows.filter p) →
      firstIdx r rows < firstIdx s rows := by
  intro rows
  induction rows with
  | nil => intro r s hr; simp at hr
  | cons hd tl ih =>
    intro r s hr hs hlt
    by_cases hp : p hd
    · rw [List.filter_cons_of_pos hp] at hr hs hlt
      by_cases hrh : hd = r
      · subst hrh
        have hsne : hd ≠ s := by
          rintro rfl
          rw [firstIdx_cons_self] at hlt
          omega
        rw [firstIdx_cons_self, firstIdx_cons_ne s hd tl hsne]
        omega
      · have hsne : hd ≠ s := by
          rintro rfl
          rw [firstIdx_cons_self] at hlt
          omega
        rw [firstIdx_cons_ne r hd _ hrh, firstIdx_cons_ne s hd _ hsne] at hlt
        rw [firstIdx_cons_ne r hd tl hrh, firstIdx_cons_ne s hd tl hsne]
        have hr' : r ∈ tl.filter p := by
          rcases List.mem_cons.mp hr with h0 | h'
          · exact absurd h0.symm hrh
          · exact h'
        have hs' : s ∈ tl.filter p := by
          rcases List.mem_cons.mp hs with h0 | h'
          · exact absurd h0.symm hsne
          · exact h'
        have := ih r s hr' hs' (by omega)
        omega
    · rw [List.filter_cons_of_neg hp] at hr hs hlt
      have hrne : hd ≠ r := by
        rintro rfl
        exact hp (List.of_mem_filter hr)
      have hsne : hd ≠ s := by
        rintro rfl
        exact hp (List.of_mem_filter hs)
      rw [firstIdx_cons_ne r hd tl hrne, firstIdx_cons_ne s hd tl hsne]
      have := ih r s hr hs hlt
      omega

/-- C9 counterexample: a row all of whose cells are *empty strings* is
not dropped by the exact deduplication stage (the claim says every row
whose cells are all empty or missing is dropped): the stage keeps it
and reports zero fully-empty rows removed. -/
theorem empty_string_row_not_dropped :
    (remove_duplicates_and_empty_rows
        (PyTable.mk ["a", "b"] [[some "", some ""]])).1.rows =
      [[some "", some ""]] ∧
    (remove_duplicates_and_empty_rows
        (PyTable.mk ["a", "b"] [[some "", some ""]])).2.1 = 0 := by
  constructor <;> rfl

/-- C9 (amended): the exact deduplication stage drops every row all of
whose cells are *missing* (a cell holding the empty string is not
missing), and afterwards drops every row that exactly equals an
earlier row, keeping the first occurrence; no other row is removed:
the result is a subsequence of the input consisting exactly of the
not-all-missing rows, without duplicate rows, ordered by first
occurrence, and the logged count of removed fully-empty rows is the
number of all-missing rows. -/
theorem exact_stage_characterization (t : PyTable) :
    (remove_duplicates_and_empty_rows t).1.header = t.header ∧
    (remove_duplicates_and_empty_rows t).1.rows.Sublist t.rows ∧
    (∀ r, r ∈ (remove_duplicates_and_empty_rows t).1.rows ↔
      r ∈ t.rows ∧ rowAllMissing r = false) ∧
    (remove_duplicates_and_empty_rows t).1.rows.Nodup ∧
    (remove_duplicates_and_empty_rows t).1.rows.Pairwise
      (fun r s => firstIdx r t.rows < firstIdx s t.rows) ∧
    (remove_duplicates_and_empty_rows t).2.1 =
      t.rows.countP (fun r => rowAllMissing r) := by
  unfold remove_duplicates_and_empty_rows dropDuplicates
  dsimp only
  refine ⟨rfl, ?_, ?_, dropDuplicatesAux_nodup _ _, ?_, ?_⟩
  · exact (dropDuplicatesAux_sublist _ []).trans (List.filter_sublist _)
  · intro r
    rw [mem_dropDuplicatesAux_iff]
    simp only [List.not_mem_nil, not_false_iff, and_true, List.mem_filter,
      Bool.not_eq_true']
  · refine (dropDuplicatesAux_pairwise _ []).imp_of_mem ?_
    intro r s hr hs hlt
    have hr' := ((mem_dropDuplicatesAux_iff _ [] r).mp hr).1
    have hs' := ((mem_dropDuplicatesAux_iff _ [] s).mp hs).1
    exact firstIdx_filter_lt _ t.rows r s hr' hs' hlt
  · have h2 := List.length_eq_countP_add_countP
      (fun r => rowAllMissing r) (l := t.rows)
    have h4 : (List.filter (fun r => !rowAllMissing r) t.rows).length =
        t.rows.countP (fun r => !rowAllMissing r) :=
      (List.countP_eq_length_filter _ _).symm
    have h3 : t.rows.countP (fun r => !rowAllMissing r) =
        t.rows.countP (fun r => ¬(rowAllMissing r = true)) := by
      apply List.countP_congr
      intro r _
      simp
    omega

/-! ## C7: uniqueness of deduplicated column names -/

theorem char_toNat_ofNat (n : Nat) (h : n < 55296) :
    (Char.ofNat n).toNat = n := by
  have hv : Nat.isValidChar n := Or.inl h
  unfold Char.ofNat
  rw [dif_pos hv]
  rfl

theorem digitChar_inj (a b : Nat) (ha : a < 10) (hb : b < 10)
    (h : Char.ofNat (48 + a) = Char.ofNat (48 + b)) : a = b := by
  have h1 := char_toNat_ofNat (48 + a) (by omega)
  have h2 := char_toNat_ofNat (48 + b) (by omega)
  rw [h] at h1
  omega

theorem digitChar_isDigit (a : Nat) (ha : a < 10) :
    (Char.ofNat (48 + a)).isDigit = true := by
  interval_cases a <;> decide

theorem natDecimalAux_length_pos :
    ∀ (fuel n : Nat), 1 ≤ (natDecimalAux fuel n).length := by
  intro fuel
  cases fuel with
  | zero => intro n; simp [natDecimalAux]
  | succ g =>
    intro n
    unfold natDecimalAux
    split
    · simp
    · simp

theorem natDecimalAux_digits :
    ∀ (fuel n : Nat), ∀ c ∈ natDecimalAux fuel n, c.isDigit = true := by
  intro fuel
  induction fuel with
  | zero =>
    intro n c hc
    simp only [natDecimalAux, List.mem_singleton] at hc
    subst hc
    exact digitChar_isDigit (n % 10) (Nat.mod_lt _ (by omega))
  | succ g ih =>
    intro n c hc
    unfold natDecimalAux at hc
    split at hc
    · rename_i hn
      simp only [List.mem_singleton] at hc
      subst hc
      exact digitChar_isDigit n hn
    · simp only [List.mem_append, List.mem_singleton] at hc
      rcases hc with hc | hc
      · exact ih _ c hc
      · subst hc
        exact digitChar_isDigit (n % 10) (Nat.mod_lt _ (by omega))

theorem natDecimal_digits (m : Nat) :
    ∀ c ∈ (natDecimal m).data, c.isDigit = true := by
  intro c hc
  exact natDecimalAux_digits m m c hc

theorem natDecimalAux_ge_two_length :
    ∀ (fuel n : Nat), n ≤ fuel → 10 ≤ n → 2 ≤ (natDecimalAux fuel n).length := by
  intro fuel
  cases fuel with
  | zero => intro n h1 h2; omega
  | succ g =>
    intro n h1 h2
    rw [show natDecimalAux (g + 1) n = if n < 10 then [Char.ofNat (48 + n)]
        else natDecimalAux g (n / 10) ++ [Char.ofNat (48 + n % 10)] from rfl,
      if_neg (by omega)]
    have := natDecimalAux_length_pos g (n / 10)
    simp
    omega

theorem natDecimalAux_inj :
    ∀ (f1 : Nat), ∀ (n f2 m : Nat), n ≤ f1 → m ≤ f2 →
      natDecimalAux f1 n = natDecimalAux f2 m → n = m := by
  intro f1
  induction f1 with
  | zero =>
    intro n f2 m h1 h2 heq
    have hn : n = 0 := by omega
    subst hn
    simp only [natDecimalAux] at heq
    cases f2 with
    | zero =>
      simp only [natDecimalAux] at heq
      have := digitChar_inj 0 (m % 10) (by omega) (Nat.mod_lt _ (by omega))
        (by simpa using heq)
      omega
    | succ g =>
      by_cases hm : m < 10
      · rw [show natDecimalAux (g + 1) m = if m < 10 then [Char.ofNat (48 + m)]
            else natDecimalAux g (m / 10) ++ [Char.ofNat (48 + m % 10)] from rfl,
          if_pos hm] at heq
        have := digitChar_inj 0 m (by omega) hm (by simpa using heq)
        omega
      · have h3 := natDecimalAux_ge_two_length (g + 1) m h2 (by omega)
        have h4 := congrArg List.length heq
        simp at h4
        omega
  | succ g ih =>
    intro n f2 m h1 h2 heq
    by_cases hn : n < 10
    · rw [show natDecimalAux (g + 1) n = if n < 10 then [Char.ofNat (48 + n)]
          else natDecimalAux g (n / 10) ++ [Char.ofNat (48 + n % 10)] from rfl,
        if_pos hn] at heq
      cases f2 with
      | zero =>
        have hm : m = 0 := by omega
        subst hm
        simp only [natDecimalAux] at heq
        have := digitChar_inj n 0 hn (by omega) (by simpa using heq)
        omega
      | succ g2 =>
        by_cases hm : m < 10
        · rw [show natDecimalAux (g2 + 1) m = if m < 10 then [Char.ofNat (48 + m)]
              else natDecimalAux g2 (m / 10) ++ [Char.ofNat (48 + m % 10)] from rfl,
            if_pos hm] at heq
          exact digitChar_inj n m hn hm (by simpa using heq)
        · have h3 := natDecimalAux_ge_two_length (g2 + 1) m h2 (by omega)
          have h4 := congrArg List.length heq
          simp at h4
          omega
    · cases f2 with
      | zero =>
        have hm : m = 0 := by omega
        subst hm
        have h3 := natDecimalAux_ge_two_length (g + 1) n h1 (by omega)
        have h4 := congrArg List.length heq
        rw [show (natDecimalAux 0 0).length = 1 from rfl] at h4
        omega
      | succ g2 =>
        by_cases hm : m < 10
        · rw [show natDecimalAux (g2 + 1) m = if m < 10 then [Char.ofNat (48 + m)]
              else natDecimalAux g2 (m / 10) ++ [Char.ofNat (48 + m % 10)] from rfl,
            if_pos hm] at heq
          have h3 := natDecimalAux_ge_two_length (g + 1) n h1 (by omega)
          have h4 := congrArg List.length heq
          simp at h4
          omega
        · rw [show natDecimalAux (g + 1) n = if n < 10 then [Char.ofNat (48 + n)]
              else natDecimalAux g (n / 10) ++ [Char.ofNat (48 + n % 10)] from rfl,
            if_neg (by omega)] at heq
          rw [show natDecimalAux (g2 + 1) m = if m < 10 then [Char.ofNat (48 + m)]
              else natDecimalAux g2 (m / 10) ++ [Char.ofNat (48 + m % 10)] from rfl,
            if_neg (by omega)] at heq
          have hrev := congrArg List.reverse heq
          simp only [List.reverse_append, List.reverse_cons, List.reverse_nil,
            List.nil_append, List.singleton_append, List.cons.injEq] at hrev
          obtain ⟨hlast, hinit⟩ := hrev
          have hmod : n % 10 = m % 10 :=
            digitChar_inj (n % 10) (m % 10) (Nat.mod_lt _ (by omega))
              (Nat.mod_lt _ (by omega)) hlast
          have hdiv : n / 10 = m / 10 := by
            apply ih (n / 10) g2 (m / 10)
            · omega
            · omega
            · have := congrArg List.reverse hinit
              simpa using this
          omega

theorem natDecimal_inj (n m : Nat) (h : natDecimal n = natDecimal m) : n = m := by
  have : natDecimalL n = natDecimalL m := congrArg String.data h
  exact natDecimalAux_inj n n m m le_rfl le_rfl this

theorem natDecimal_ne_nil (m : Nat) : (natDecimal m).data ≠ [] := by
  intro h
  have := natDecimalAux_length_pos m m
  rw [show natDecimalAux m m = (natDecimal m).data from rfl, h] at this
  simp at this

/-- Splitting a string of the shape `base_digits` at the underscore is
unambiguous when the digit parts are underscore-free. -/
theorem underscore_split_inj :
    ∀ (a b x y : List Char),
      a ++ '_' :: x = b ++ '_' :: y →
      (∀ c ∈ x, c ≠ '_') → (∀ c ∈ y, c ≠ '_') →
      a = b ∧ x = y := by
  intro a
  induction a with
  | nil =>
    intro b x y heq hx hy
    cases b with
    | nil => simpa using heq
    | cons c b' =>
      simp only [List.nil_append, List.cons_append, List.cons.injEq] at heq
      obtain ⟨hc, hrest⟩ := heq
      exfalso
      have : '_' ∈ x := by
        rw [hrest]
        exact List.mem_append_right _ (List.mem_cons_self _ _)
      exact hx _ this rfl
  | cons c a' ih =>
    intro b x y heq hx hy
    cases b with
    | nil =>
      simp only [List.nil_append, List.cons_append, List.cons.injEq] at heq
      obtain ⟨hc, hrest⟩ := heq
      exfalso
      have : '_' ∈ y := by
        rw [← hrest]
        exact List.mem_append_right _ (List.mem_cons_self _ _)
      exact hy _ this rfl
    | cons c' b' =>
      simp only [List.cons_append, List.cons.injEq] at heq
      obtain ⟨hc, hrest⟩ := heq
      obtain ⟨h1, h2⟩ := ih b' x y hrest hx hy
      exact ⟨by rw [hc, h1], h2⟩

theorem suffixed_eq_iff (b b' : String) (m m' : Nat)
    (h : b ++ "_" ++ natDecimal m = b' ++ "_" ++ natDecimal m') :
    b = b' ∧ m = m' := by
  have hdata : b.data ++ '_' :: (natDecimal m).data =
      b'.data ++ '_' :: (natDecimal m').data := by
    have := congrArg String.data h
    simpa [String.data_append] using this
  have hx : ∀ c ∈ (natDecimal m).data, c ≠ '_' := by
    intro c hc he
    have := natDecimal_digits m c hc
    rw [he] at this
    simp [Char.isDigit] at this
  have hy : ∀ c ∈ (natDecimal m').data, c ≠ '_' := by
    intro c hc he
    have := natDecimal_digits m' c hc
    rw [he] at this
    simp [Char.isDigit] at this
  obtain ⟨h1, h2⟩ := underscore_split_inj _ _ _ _ hdata hx hy
  constructor
  · exact congrArg String.mk h1
  · exact natDecimal_inj m m' (congrArg String.mk h2)

theorem base_ne_suffixed (b b' : String) (m : Nat)
    (h : b.length = b'.length) : b ≠ b' ++ "_" ++ natDecimal m := by
  intro he
  have := congrArg String.length he
  have h2 : (natDecimal m).length ≥ 1 := by
    have := natDecimalAux_length_pos m m
    simpa [natDecimal, natDecimalL, String.length] using this
  simp only [String.length_append] at this
  have h3 : ("_" : String).length = 1 := rfl
  omega

theorem assocGet_set_self (seen : List (String × Nat)) (k : String) (v : Nat) :
    assocGet (assocSet seen k v) k = some v := by
  induction seen with
  | nil => simp [assocSet, assocGet]
  | cons p rest ih =>
    unfold assocSet
    split
    · rename_i hp
      simp [assocGet, List.find?]
    · rename_i hp
      unfold assocGet at ih ⊢
      simp only [List.find?]
      rw [show (decide (p.1 = k)) = false by simpa using hp]
      exact ih

theorem assocGet_set_ne (seen : List (String × Nat)) (k k' : String) (v : Nat)
    (h : k ≠ k') : assocGet (assocSet seen k v) k' = assocGet seen k' := by
  induction seen with
  | nil =>
    unfold assocSet assocGet
    simp only [List.find?]
    rw [show (decide (k = k')) = false by simpa using h]
  | cons p rest ih =>
    unfold assocSet
    split
    · rename_i hp
      unfold assocGet
      simp only [List.find?]
      rw [show (decide (k = k')) = false by simpa using h]
      rw [show (decide (p.1 = k')) = false by
        subst hp; simpa using h]
    · rename_i hp
      unfold assocGet at ih ⊢
      simp only [List.find?]
      cases hdec : decide (p.1 = k')
      · exact ih
      · rfl

theorem assocGet_mem (seen : List (String × Nat)) (c : String) (k : Nat)
    (h : assocGet seen c = some k) : (c, k) ∈ seen := by
  unfold assocGet at h
  rw [Option.map_eq_some'] at h
  obtain ⟨p, hf, hk⟩ := h
  have hp := List.mem_of_find?_eq_some hf
  have hpc := List.find?_some hf
  simp at hpc
  obtain ⟨p1, p2⟩ := p
  simp at hpc hk
  rw [← hpc, ← hk]
  exact hp

theorem mem_assocSet (seen : List (String × Nat)) (c : String) (v : Nat) (p : String × Nat)
    (h : p ∈ assocSet seen c v) : p ∈ seen ∨ p = (c, v) := by
  induction seen with
  | nil =>
    simp [assocSet] at h
    right; exact h
  | cons q rest ih =>
    unfold assocSet at h
    split at h
    · rcases List.mem_cons.mp h with h1 | h1
      · right; exact h1
      · left; exact List.mem_cons_of_mem _ h1
    · rcases List.mem_cons.mp h with h1 | h1
      · left; rw [h1]; exact List.mem_cons_self _ _
      · rcases ih h1 with h2 | h2
        · left; exact List.mem_cons_of_mem _ h2
        · right; exact h2

theorem dedupNamesAux_cons_none (seen : List (String × Nat)) (c : String) (cs : List String)
    (h : assocGet seen c = none) :
    dedupNamesAux seen (c :: cs) = c :: dedupNamesAux (assocSet seen c 1) cs := by
  rw [show dedupNamesAux seen (c :: cs)
      = (match assocGet seen c with
        | none => c :: dedupNamesAux (assocSet seen c 1) cs
        | some k =>
            (c ++ "_" ++ natDecimal (k + 1)) :: dedupNamesAux (assocSet seen c (k + 1)) cs)
      from rfl, h]

theorem dedupNamesAux_cons_some (seen : List (String × Nat)) (c : String) (cs : List String)
    (k : Nat) (h : assocGet seen c = some k) :
    dedupNamesAux seen (c :: cs)
      = (c ++ "_" ++ natDecimal (k + 1)) :: dedupNamesAux (assocSet seen c (k + 1)) cs := by
  rw [show dedupNamesAux seen (c :: cs)
      = (match assocGet seen c with
        | none => c :: dedupNamesAux (assocSet seen c 1) cs
        | some j =>
            (c ++ "_" ++ natDecimal (j + 1)) :: dedupNamesAux (assocSet seen c (j + 1)) cs)
      from rfl, h]

/-- If a base name is already in the seen-map, it can never again be
emitted as a bare name by the deduplication loop: any occurrence of
that string in the remaining output must come from a suffixed
emission. -/
theorem dedup_bare_blocked :
    ∀ (cs : List String) (seen : List (String × Nat)) (b : String),
      (assocGet seen b).isSome = true →
      (∀ p ∈ seen, 1 ≤ p.2) →
      b ∈ dedupNamesAux seen cs →
      ∃ b' ∈ cs, ∃ m, 2 ≤ m ∧ b = b' ++ "_" ++ natDecimal m := by
  intro cs
  induction cs with
  | nil => intro seen b _ _ hmem; simp [dedupNamesAux] at hmem
  | cons c cs ih =>
    intro seen b hsome hpos hmem
    cases hget : assocGet seen c with
    | none =>
      rw [dedupNamesAux_cons_none seen c cs hget] at hmem
      rcases List.mem_cons.mp hmem with h1 | h1
      · rw [h1, hget] at hsome
        simp at hsome
      · have hne : c ≠ b := by
          intro he
          rw [he] at hget
          rw [hget] at hsome
          simp at hsome
        have hsome' : (assocGet (assocSet seen c 1) b).isSome = true := by
          rw [assocGet_set_ne seen c b 1 hne]
          exact hsome
        have hpos' : ∀ p ∈ assocSet seen c 1, 1 ≤ p.2 := by
          intro p hp
          rcases mem_assocSet seen c 1 p hp with h2 | h2
          · exact hpos p h2
          · rw [h2]
        obtain ⟨b', hb', m, hm, heq⟩ := ih (assocSet seen c 1) b hsome' hpos' h1
        exact ⟨b', List.mem_cons_of_mem _ hb', m, hm, heq⟩
    | some k =>
      rw [dedupNamesAux_cons_some seen c cs k hget] at hmem
      rcases List.mem_cons.mp hmem with h1 | h1
      · have hk1 : 1 ≤ k := hpos _ (assocGet_mem seen c k hget)
        exact ⟨c, List.mem_cons_self _ _, k + 1, by omega, h1⟩
      · have hsome' : (assocGet (assocSet seen c (k + 1)) b).isSome = true := by
          by_cases hbc : c = b
          · rw [← hbc, assocGet_set_self]
            rfl
          · rw [assocGet_set_ne seen c b (k + 1) hbc]
            exact hsome
        have hpos' : ∀ p ∈ assocSet seen c (k + 1), 1 ≤ p.2 := by
          intro p hp
          rcases mem_assocSet seen c (k + 1) p hp with h2 | h2
          · exact hpos p h2
          · rw [h2]; show 1 ≤ k + 1; omega
        obtain ⟨b', hb', m, hm, heq⟩ := ih (assocSet seen c (k + 1)) b hsome' hpos' h1
        exact ⟨b', List.mem_cons_of_mem _ hb', m, hm, heq⟩

/-- If the seen-map records count `v` for base `b`, then any later
suffixed emission for base `b` uses an index strictly above `v`
(unless the matching string was in fact one of the remaining input
names emitted bare). -/
theorem dedup_suffix_bound :
    ∀ (cs : List String) (seen : List (String × Nat)) (b : String) (v m : Nat),
      assocGet seen b = some v →
      (b ++ "_" ++ natDecimal m) ∈ dedupNamesAux seen cs →
      v + 1 ≤ m ∨ ∃ b' ∈ cs, b ++ "_" ++ natDecimal m = b' := by
  intro cs
  induction cs with
  | nil => intro seen b v m _ hmem; simp [dedupNamesAux] at hmem
  | cons c cs ih =>
    intro seen b v m hv hmem
    cases hget : assocGet seen c with
    | none =>
      rw [dedupNamesAux_cons_none seen c cs hget] at hmem
      rcases List.mem_cons.mp hmem with h1 | h1
      · exact Or.inr ⟨c, List.mem_cons_self _ _, h1⟩
      · have hne : c ≠ b := by
          intro he
          rw [he] at hget
          rw [hget] at hv
          exact Option.noConfusion hv
        have hv' : assocGet (assocSet seen c 1) b = some v := by
          rw [assocGet_set_ne seen c b 1 hne]
          exact hv
        rcases ih (assocSet seen c 1) b v m hv' h1 with h2 | ⟨b', hb', h2⟩
        · exact Or.inl h2
        · exact Or.inr ⟨b', List.mem_cons_of_mem _ hb', h2⟩
    | some k =>
      rw [dedupNamesAux_cons_some seen c cs k hget] at hmem
      rcases List.mem_cons.mp hmem with h1 | h1
      · obtain ⟨hbc, hmk⟩ := suffixed_eq_iff b c m (k + 1) h1
        rw [hbc] at hv
        rw [hget] at hv
        have hvk : v = k := (Option.some.inj hv).symm
        left; omega
      · by_cases hbc : c = b
        · have hv' : assocGet (assocSet seen c (k + 1)) b = some (k + 1) := by
            rw [← hbc]
            exact assocGet_set_self seen c (k + 1)
          have hvk : v = k := by
            rw [← hbc] at hv
            rw [hget] at hv
            exact (Option.some.inj hv).symm
          rcases ih (assocSet seen c (k + 1)) b (k + 1) m hv' h1 with h2 | ⟨b', hb', h2⟩
          · left; omega
          · exact Or.inr ⟨b', List.mem_cons_of_mem _ hb', h2⟩
        · have hv' : assocGet (assocSet seen c (k + 1)) b = some v := by
            rw [assocGet_set_ne seen c b (k + 1) hbc]
            exact hv
          rcases ih (assocSet seen c (k + 1)) b v m hv' h1 with h2 | ⟨b', hb', h2⟩
          · exact Or.inl h2
          · exact Or.inr ⟨b', List.mem_cons_of_mem _ hb', h2⟩

/-- The deduplication loop produces pairwise-distinct names whenever no
input base name has the shape of another base name followed by an
underscore and a decimal numeral at least 2 (which is exactly the shape
of generated suffixes). -/
theorem dedupNamesAux_nodup (bases : List String)
    (H : ∀ b ∈ bases, ∀ b' ∈ bases, ∀ k, 2 ≤ k → b ≠ b' ++ "_" ++ natDecimal k) :
    ∀ (cs : List String) (seen : List (String × Nat)),
      (∀ b ∈ cs, b ∈ bases) →
      (∀ p ∈ seen, p.1 ∈ bases) →
      (∀ p ∈ seen, 1 ≤ p.2) →
      (dedupNamesAux seen cs).Nodup := by
  intro cs
  induction cs with
  | nil => intro seen _ _ _; simp [dedupNamesAux]
  | cons c cs ih =>
    intro seen hsub hdom hpos
    have hc : c ∈ bases := hsub c (List.mem_cons_self _ _)
    cases hget : assocGet seen c with
    | none =>
      have hpos' : ∀ p ∈ assocSet seen c 1, 1 ≤ p.2 := by
        intro p hp
        rcases mem_assocSet seen c 1 p hp with h2 | h2
        · exact hpos p h2
        · rw [h2]
      rw [dedupNamesAux_cons_none seen c cs hget]
      refine List.nodup_cons.mpr ⟨?_, ?_⟩
      · intro hmem
        have hsome : (assocGet (assocSet seen c 1) c).isSome = true := by
          rw [assocGet_set_self]
          rfl
        obtain ⟨b', hb', m, hm, heq⟩ :=
          dedup_bare_blocked cs (assocSet seen c 1) c hsome hpos' hmem
        exact H c hc b' (hsub b' (List.mem_cons_of_mem _ hb')) m hm heq
      · apply ih (assocSet seen c 1)
        · intro b hb
          exact hsub b (List.mem_cons_of_mem _ hb)
        · intro p hp
          rcases mem_assocSet seen c 1 p hp with h2 | h2
          · exact hdom p h2
          · rw [h2]; exact hc
        · exact hpos'
    | some k =>
      have hpos' : ∀ p ∈ assocSet seen c (k + 1), 1 ≤ p.2 := by
        intro p hp
        rcases mem_assocSet seen c (k + 1) p hp with h2 | h2
        · exact hpos p h2
        · rw [h2]; show 1 ≤ k + 1; omega
      rw [dedupNamesAux_cons_some seen c cs k hget]
      refine List.nodup_cons.mpr ⟨?_, ?_⟩
      · intro hmem
        have hk1 : 1 ≤ k := hpos _ (assocGet_mem seen c k hget)
        have hv' : assocGet (assocSet seen c (k + 1)) c = some (k + 1) :=
          assocGet_set_self seen c (k + 1)
        rcases dedup_suffix_bound cs (assocSet seen c (k + 1)) c (k + 1) (k + 1)
            hv' hmem with h2 | ⟨b', hb', h2⟩
        · omega
        · exact H b' (hsub b' (List.mem_cons_of_mem _ hb')) c hc (k + 1) (by omega) h2.symm
      · apply ih (assocSet seen c (k + 1))
        · intro b hb
          exact hsub b (List.mem_cons_of_mem _ hb)
        · intro p hp
          rcases mem_assocSet seen c (k + 1) p hp with h2 | h2
          · exact hdom p h2
          · rw [h2]; exact hc
        · exact hpos'

/-- C7 (counterexample): the header `["a", "a", "a_2"]` refutes the claim
that the canonicalize-then-deduplicate step always yields pairwise
distinct column names: the second `"a"` is renamed to `"a_2"`, which
collides with the existing third column `"a_2"`, so the output header
`["a", "a_2", "a_2"]` has a duplicate. -/
theorem column_name_collision :
    (normalize_columns { header := ["a", "a", "a_2"], rows := [] }).1.header
        = ["a", "a_2", "a_2"]
      ∧ ¬ ((normalize_columns { header := ["a", "a", "a_2"], rows := [] }).1.header).Nodup := by
  decide

/-- C7 (amended): the column names produced by `normalize_columns`
(snake-case canonicalization followed by the first-kept, `_2`, `_3`, …
suffixing deduplication) are pairwise distinct provided no canonical
base name already has the shape of another canonical base name followed
by `"_"` and a decimal numeral `≥ 2` — exactly the shape of the
generated suffixes.  Without that proviso the property fails (see the
counterexample). -/
theorem unique_column_names (t : PyTable)
    (H : ∀ b ∈ t.header.map snake_case, ∀ b' ∈ t.header.map snake_case,
      ∀ k, 2 ≤ k → b ≠ b' ++ "_" ++ natDecimal k) :
    ((normalize_columns t).1.header).Nodup := by
  have hd : (dedupNames (t.header.map snake_case)).Nodup :=
    dedupNamesAux_nodup (t.header.map snake_case) H (t.header.map snake_case) []
      (fun b hb => hb) (by simp) (by simp)
  unfold normalize_columns
  dsimp only
  split
  · exact hd
  · rename_i hne
    have heq : dedupNames (t.header.map snake_case) = t.header := not_not.mp hne
    show t.header.Nodup
    rw [← heq]
    exact hd

/-- Witness for C7 (amended) at the concrete header `["a", "a", "b"]`:
all canonical names have length 1, so none can be another name plus an
underscore suffix, and the deduplicated header is duplicate-free. -/
theorem unique_column_names_witness :
    ((normalize_columns { header := ["a", "a", "b"], rows := [] }).1.header).Nodup := by
  apply unique_column_names
  intro b hb b' hb' k hk
  have hlen : ∀ x ∈ (["a", "a", "b"] : List String).map snake_case, x.length = 1 := by decide
  exact base_ne_suffixed b b' k (by rw [hlen b hb, hlen b' hb'])

/-- C3: decision policy of `detect_and_strip_preamble`.  When a best
candidate exists (the scored candidate list is nonempty), the text is
returned unchanged if the best line index exceeds `MAX_PREAMBLE` (15);
it is also returned unchanged if the best index is nonzero and the gap
between the best and second-best scores is below `MIN_GAP` (0.75); in
every other case the result is exactly the original lines with the
lines preceding the chosen header line dropped. -/
theorem preamble_decision_policy (text : String) (d : Char)
    (bestI : Nat) (bestS : Frac) (rest : List (Nat × Frac))
    (hne : (pySplitlines text).isEmpty = false)
    (hfc : (headerFieldCounts (pySplitlines text) d).isEmpty = false)
    (hsc : headerScored (pySplitlines text) d = (bestI, bestS) :: rest) :
    (MAX_PREAMBLE < bestI → detect_and_strip_preamble text d = text)
    ∧ (∀ (i2 : Nat) (s2 : Frac) (r2 : List (Nat × Frac)), rest = (i2, s2) :: r2 →
        bestI ≤ MAX_PREAMBLE → 0 < bestI → Frac.lt (bestS - s2) MIN_GAP = true →
        detect_and_strip_preamble text d = text)
    ∧ (bestI ≤ MAX_PREAMBLE →
        (bestI = 0 ∨ ∀ (i2 : Nat) (s2 : Frac) (r2 : List (Nat × Frac)),
            rest = (i2, s2) :: r2 → Frac.lt (bestS - s2) MIN_GAP = false) →
        detect_and_strip_preamble text d = joinLines ((pySplitlines text).drop bestI)) := by
  cases rest with
  | nil =>
    have hstep : detect_and_strip_preamble text d =
        (if MAX_PREAMBLE < bestI then text
         else joinLines ((pySplitlines text).drop bestI)) := by
      unfold detect_and_strip_preamble
      dsimp only
      rw [hne, hfc]
      simp only [hsc]
      simp
    refine ⟨?_, ?_, ?_⟩
    · intro h
      rw [hstep, if_pos h]
    · intro i2 s2 r2 hres hle hpos hlt
      simp at hres
    · intro hle hcond
      rw [hstep, if_neg (by omega)]
  | cons p r2' =>
    obtain ⟨i2, s2⟩ := p
    have hstep : detect_and_strip_preamble text d =
        (if MAX_PREAMBLE < bestI then text
         else if (decide (0 < bestI) && Frac.lt (bestS - s2) MIN_GAP) = true then text
         else joinLines ((pySplitlines text).drop bestI)) := by
      unfold detect_and_strip_preamble
      dsimp only
      rw [hne, hfc]
      simp only [hsc]
      rfl
    refine ⟨?_, ?_, ?_⟩
    · intro h
      rw [hstep, if_pos h]
    · intro j2 t2 q2 hres hle hpos hlt
      injection hres with ha hb
      injection ha with ha1 ha2
      rw [← ha2] at hlt
      rw [hstep, if_neg (by omega), if_pos (by rw [hlt, decide_eq_true hpos]; rfl)]
    · intro hle hcond
      rcases hcond with h0 | hall
      · rw [hstep, if_neg (by omega), if_neg (by rw [h0]; simp)]
      · have hf := hall i2 s2 r2' rfl
        rw [hstep, if_neg (by omega), if_neg (by rw [hf]; simp)]

/-- Witness for C3 on `"3\nname,city\n1,2"` with delimiter `,`: the
header is detected on line 2 and the single preamble line is removed. -/
theorem preamble_decision_policy_witness :
    detect_and_strip_preamble "3\nname,city\n1,2" ',' = "name,city\n1,2" := by
  have h := preamble_decision_policy "3\nname,city\n1,2" ',' 1 ⟨18560, 3200⟩
      [(0, ⟨-305, 100⟩), (2, ⟨-9760, 3200⟩)] (by rfl) (by rfl) (by rfl)
  rw [h.2.2 (by decide) (Or.inr (by
    intro i2 s2 r2 hres
    injection hres with h1 h2
    injection h1 with h1a h1b
    rw [← h1b]
    rfl))]
  rfl

/-- C4: delimiter detection returns `;` on `"a;b;c\n1;2;3\n4;5;6"` and
on the decimal-comma input `"id;amount\n1;1.234,56\n2;12,34"`; and in
the heuristic stage (sniffer failed), whenever the comma and semicolon
consistency scores are within the 0.35 tolerance and the fraction of
semicolon-split tokens matching the decimal-comma shape is at least 6%,
the returned delimiter is the semicolon. -/
theorem euro_aware_delimiter :
    guess_delimiter_euro_aware "a;b;c\n1;2;3\n4;5;6" = ';'
    ∧ guess_delimiter_euro_aware "id;amount\n1;1.234,56\n2;12,34" = ';'
    ∧ (∀ text : String,
        csvSniff (delimiterSampleLines text) = none →
        scoresClose (consistency_score (delimiterSampleLines text) ';')
          (consistency_score (delimiterSampleLines text) ',') = true →
        Frac.le (fracOfRatio 6 100)
          (decimal_comma_density (delimiterSampleLines text) ';') = true →
        guess_delimiter_euro_aware text = ';') := by
  refine ⟨by decide, by decide, ?_⟩
  intro text hsn hclose hdens
  unfold guess_delimiter_euro_aware
  dsimp only
  simp only [hsn]
  unfold heuristicDelimiter
  dsimp only
  rw [hclose, hdens]
  simp

/-- Witness for C4 on a sample where the sniffer fails, the comma and
semicolon scores tie, and 60% of semicolon-split tokens are
decimal-comma shaped. -/
theorem euro_aware_delimiter_witness :
    guess_delimiter_euro_aware "1,2;x\n3,4;y;z\n5,6;7,8\n9,0;1,2;w" = ';' :=
  euro_aware_delimiter.2.2 "1,2;x\n3,4;y;z\n5,6;7,8\n9,0;1,2;w" (by rfl) (by rfl) (by rfl)

/-- C5 (counterexample): the spec example column with non-empty values
`"1.234,56"`, `"12,34"`, `"(5,00)"` is NOT converted, refuting the
claim: all three values parse, but the column has only 3 sampled
non-empty values, below the 5-sample minimum required by the guard. -/
theorem three_value_column_not_converted :
    normalizeNumericCol [some "1.234,56", some "12,34", some "(5,00)"] = none
    ∧ (columnNonEmpty [some "1.234,56", some "12,34", some "(5,00)"]).length = 3
    ∧ (∀ v ∈ columnNonEmpty [some "1.234,56", some "12,34", some "(5,00)"],
        (to_float_safe v).isSome = true) := by
  decide

/-- C5 (amended): the parser maps `"1.234,56"`, `"12,34"`, `"(5,00)"`
to 1234.56, 12.34 and -5; a column with those values padded to 7 cells
(6 parseable, one `"n/a"`) is converted with the unparseable cell made
missing; a mostly free-text column (1 of 6 parses, below 85%) is left
untouched; and any converted column has at least 5 sampled non-empty
values with a parse success rate of at least 85%. -/
theorem numeric_normalization_policy :
    ((to_float_safe "1.234,56").map Frac.toRat = some (1234.56 : ℚ)
      ∧ (to_float_safe "12,34").map Frac.toRat = some (12.34 : ℚ)
      ∧ (to_float_safe "(5,00)").map Frac.toRat = some (-5 : ℚ))
    ∧ normalizeNumericCol
        [some "1.234,56", some "12,34", some "(5,00)", some "1,00", some "2,50",
          some "3,75", some "n/a"]
        = some [some ⟨123456, 100⟩, some ⟨1234, 100⟩, some ⟨-500, 100⟩,
            some ⟨100, 100⟩, some ⟨250, 100⟩, some ⟨375, 100⟩, none]
    ∧ normalizeNumericCol
        [some "apple", some "pear", some "fig", some "plum", some "kiwi", some "1,00"]
        = none
    ∧ (∀ cells : List (Option String), normalizeNumericCol cells ≠ none →
        5 ≤ (columnNonEmpty cells).length
        ∧ Frac.le (fracOfRatio 85 100)
            (fracOfRatio ((columnNonEmpty cells).countP fun v => (to_float_safe v).isSome)
              (columnNonEmpty cells).length) = true) := by
  refine ⟨⟨?_, ?_, ?_⟩, by decide, by decide, ?_⟩
  · rw [show to_float_safe "1.234,56" = some ⟨123456, 100⟩ from rfl]
    simp only [Option.map_some', Option.some.injEq, Frac.toRat]
    norm_num
  · rw [show to_float_safe "12,34" = some ⟨1234, 100⟩ from rfl]
    simp only [Option.map_some', Option.some.injEq, Frac.toRat]
    norm_num
  · rw [show to_float_safe "(5,00)" = some ⟨-500, 100⟩ from rfl]
    simp only [Option.map_some', Option.some.injEq, Frac.toRat]
    norm_num
  · intro cells h
    unfold normalizeNumericCol at h
    split at h
    · rename_i hq
      unfold columnQualifies at hq
      dsimp only at hq
      split at hq
      · exact absurd hq (by simp)
      · rw [Bool.and_eq_true] at hq
        exact ⟨of_decide_eq_true hq.2, hq.1⟩
    · exact absurd rfl h

/-- Witness for C5 (amended), discharging the only-if direction on the
concrete converted 7-cell column. -/
theorem numeric_normalization_policy_witness :
    5 ≤ (columnNonEmpty [some "1.234,56", some "12,34", some "(5,00)", some "1,00",
        some "2,50", some "3,75", some "n/a"]).length
    ∧ Frac.le (fracOfRatio 85 100)
        (fracOfRatio ((columnNonEmpty [some "1.234,56", some "12,34", some "(5,00)",
            some "1,00", some "2,50", some "3,75", some "n/a"]).countP
            fun v => (to_float_safe v).isSome)
          (columnNonEmpty [some "1.234,56", some "12,34", some "(5,00)", some "1,00",
            some "2,50", some "3,75", some "n/a"]).length) = true :=
  numeric_normalization_policy.2.2.2
    [some "1.234,56", some "12,34", some "(5,00)", some "1,00", some "2,50",
      some "3,75", some "n/a"] (by decide)

/-- C8: the record `a,"line1\nline2",c`, whose quoted field spans two
physical lines, stitches to exactly one logical line, which parses to
one row of three fields whose second field contains the embedded
newline; and in general one step of the stitch loop emits the
accumulated buffer plus the scanned line as one logical line exactly
when the quote flag is false after scanning, and only buffers (emitting
nothing) when the flag is true. -/
theorem multiline_record_stitched :
    (stitchLogicalLines "a,\"line1\nline2\",c" = ["a,\"line1\nline2\",c"]
      ∧ csvParse (stitch_csv_records "a,\"line1\nline2\",c") ',' = [["a", "line1\nline2", "c"]]
      ∧ '\n' ∈ ("line1\nline2" : String).data)
    ∧ (∀ (line : String) (rest : List String) (buf : List String) (inq : Bool),
        (processLineForQuotes line.data inq = false →
          stitchLoop (line :: rest) buf inq
            = (joinLines (buf ++ [line]) :: (stitchLoop rest [] false).1,
                (stitchLoop rest [] false).2))
        ∧ (processLineForQuotes line.data inq = true →
          stitchLoop (line :: rest) buf inq = stitchLoop rest (buf ++ [line]) true)) := by
  refine ⟨by decide, ?_⟩
  intro line rest buf inq
  have hstep : stitchLoop (line :: rest) buf inq
      = (if processLineForQuotes line.data inq then stitchLoop rest (buf ++ [line]) true
         else (joinLines (buf ++ [line]) :: (stitchLoop rest [] false).1,
           (stitchLoop rest [] false).2)) := rfl
  constructor
  · intro h
    rw [hstep, h]
    simp
  · intro h
    rw [hstep, h]
    simp

/-- Witness for C8: running the two step cases on the concrete pair of
physical lines `a,"x` and `y",b` produces the single logical line
`a,"x\ny",b` with an empty final buffer. -/
theorem multiline_record_stitched_witness :
    stitchLoop ["a,\"x", "y\",b"] [] false
      = (["a,\"x\ny\",b"], []) := by
  have h1 := ((multiline_record_stitched.2 "a,\"x" ["y\",b"] [] false).2 (by rfl))
  have h2 := ((multiline_record_stitched.2 "y\",b" [] ["a,\"x"] true).1 (by rfl))
  rw [List.nil_append] at h1
  rw [h1, h2]
  rfl

theorem intercalate_go_data (s : String) :
    ∀ (as : List String) (acc : String),
      (String.intercalate.go acc s as).data
        = acc.data ++ as.flatMap (fun a => s.data ++ a.data) := by
  intro as
  induction as with
  | nil => intro acc; simp [String.intercalate.go]
  | cons a as ih =>
    intro acc
    rw [show String.intercalate.go acc s (a :: as)
        = String.intercalate.go (acc ++ s ++ a) s as from rfl]
    rw [ih]
    simp [String.data_append]

theorem intercalate_data_cons (s a : String) (as : List String) :
    (String.intercalate s (a :: as)).data
      = a.data ++ as.flatMap (fun b => s.data ++ b.data) := by
  rw [show String.intercalate s (a :: as) = String.intercalate.go a s as from rfl,
    intercalate_go_data]

theorem join_data_aux :
    ∀ (ls : List String) (acc : String),
      (ls.foldl (fun r s => r ++ s) acc).data = acc.data ++ ls.flatMap (·.data) := by
  intro ls
  induction ls with
  | nil => intro acc; simp
  | cons a as ih =>
    intro acc
    rw [List.foldl_cons, ih]
    simp [String.data_append]

theorem join_data (ls : List String) :
    (String.join ls).data = ls.flatMap (·.data) := by
  rw [show String.join ls = ls.foldl (fun r s => r ++ s) "" from rfl, join_data_aux]
  rfl

set_option maxHeartbeats 1000000 in
theorem pySplitlinesL_cons_nonbreak (c : Char) (cs : List Char) (l : List Char)
    (ls : List (List Char)) (hc : pyLineBreak c = false)
    (h : pySplitlinesL cs = l :: ls) :
    pySplitlinesL (c :: cs) = (c :: l) :: ls := by
  have hcr : c ≠ '\r' := by
    intro he; rw [he] at hc; simp [pyLineBreak] at hc
  unfold pySplitlinesL
  split
  · rename_i heq
    exact absurd heq (by simp)
  · rename_i heq
    injection heq with h1 h2
    exact absurd h1 hcr
  · rename_i hne heq
    injection heq with h1 h2
    subst h1
    subst h2
    rw [if_neg (by rw [hc]; simp)]
    simp only [h]

theorem pySplitlinesL_line (l : List Char) (rest : List Char)
    (hl : ∀ c ∈ l, pyLineBreak c = false) :
    pySplitlinesL (l ++ '\n' :: rest) = l :: pySplitlinesL rest := by
  induction l with
  | nil =>
    show pySplitlinesL ('\n' :: rest) = [] :: pySplitlinesL rest
    rfl
  | cons c l ih =>
    have hc := hl c (List.mem_cons_self _ _)
    have ih2 := ih (fun x hx => hl x (List.mem_cons_of_mem _ hx))
    exact pySplitlinesL_cons_nonbreak c _ l (pySplitlinesL rest) hc ih2

theorem pySplitlinesL_terminated (L : List (List Char))
    (hL : ∀ l ∈ L, ∀ c ∈ l, pyLineBreak c = false) :
    pySplitlinesL (L.flatMap (fun l => l ++ ['\n'])) = L := by
  induction L with
  | nil => rfl
  | cons l L ih =>
    rw [List.flatMap_cons]
    have h1 : l ++ ['\n'] ++ L.flatMap (fun l => l ++ ['\n'])
        = l ++ '\n' :: L.flatMap (fun l => l ++ ['\n']) := by simp
    rw [h1, pySplitlinesL_line l _ (hL l (List.mem_cons_self _ _)),
      ih (fun x hx => hL x (List.mem_cons_of_mem _ hx))]

theorem plainField_chars (d : Char) (f : String) (h : plainField d f = true) :
    ∀ c ∈ f.data, pyLineBreak c = false ∧ c ≠ d ∧ c ≠ '"' := by
  unfold plainField at h
  simp only [Bool.and_eq_true] at h
  intro c hc
  have h2 := (List.all_eq_true.mp h.2) c hc
  simp only [Bool.and_eq_true, Bool.not_eq_true', decide_eq_false_iff_not] at h2
  exact ⟨h2.1.1, h2.1.2, h2.2⟩

theorem plainField_ne (d : Char) (f : String) (h : plainField d f = true) : f ≠ "" := by
  unfold plainField at h
  simp only [Bool.and_eq_true] at h
  have h1 := h.1.1
  intro he
  rw [he] at h1
  simp at h1
  exact absurd h1 (by decide)

theorem writeField_plain (d : Char) (f : String) (h : plainField d f = true) :
    writeField d f = f := by
  have hch := plainField_chars d f h
  unfold writeField
  rw [if_neg]
  intro hq
  unfold fieldNeedsQuote at hq
  rw [List.any_eq_true] at hq
  obtain ⟨c, hc, hcc⟩ := hq
  obtain ⟨hb, hd2, hq2⟩ := hch c hc
  simp only [Bool.or_eq_true, decide_eq_true_eq] at hcc
  rcases hcc with (h1 | h1) | h1
  · exact hd2 h1
  · exact hq2 h1
  · rw [h1] at hb
    simp [pyLineBreak] at hb

theorem writeRow_plain (d : Char) (r : List String) (hne : r ≠ [])
    (h : ∀ f ∈ r, plainField d f = true) :
    writeRow d r = String.intercalate ⟨[d]⟩ r := by
  cases r with
  | nil => exact absurd rfl hne
  | cons f fs =>
    cases fs with
    | nil =>
      have hp := h f (List.mem_cons_self _ _)
      show (if f = "" then "\"\"" else writeField d f) = String.intercalate ⟨[d]⟩ [f]
      rw [if_neg (plainField_ne d f hp), writeField_plain d f hp]
      rfl
    | cons g gs =>
      show String.intercalate ⟨[d]⟩ ((f :: g :: gs).map (writeField d))
        = String.intercalate ⟨[d]⟩ (f :: g :: gs)
      have hmap : (f :: g :: gs).map (writeField d) = f :: g :: gs := by
        rw [show (f :: g :: gs) = (f :: g :: gs).map id from (List.map_id _).symm]
        simp only [List.map_map]
        exact List.map_congr_left fun x hx => by
          simp only [Function.comp_apply, id]
          exact writeField_plain d x (h x (by simpa using hx))
      rw [hmap]

theorem csvScan_inField_chars (d : Char) :
    ∀ (cs : List Char), (∀ c ∈ cs, c ≠ d ∧ c ≠ '\n') →
      ∀ (rest : List Char) (accF : List Char) (accR : List String),
      csvScan d (cs ++ rest) RState.inField accF accR
        = csvScan d rest RState.inField (accF ++ cs) accR := by
  intro cs
  induction cs with
  | nil => intro _ rest accF accR; simp
  | cons c cs ih =>
    intro h rest accF accR
    have hc := h c (List.mem_cons_self _ _)
    have hstep : csvScan d ((c :: cs) ++ rest) RState.inField accF accR
        = (if c = d then csvScan d (cs ++ rest) RState.startField [] (accR ++ [⟨accF⟩])
          else if c = '\n' then
            (accR ++ [⟨accF⟩]) :: csvScan d (cs ++ rest) RState.startRecord [] []
          else csvScan d (cs ++ rest) RState.inField (accF ++ [c]) accR) := rfl
    rw [hstep, if_neg hc.1, if_neg hc.2,
      ih (fun x hx => h x (List.mem_cons_of_mem _ hx)) rest (accF ++ [c]) accR]
    simp

theorem csvScan_field_start (d : Char) (f : String) (hp : plainField d f = true)
    (rest : List Char) (accR : List String) :
    csvScan d (f.data ++ rest) RState.startField [] accR
      = csvScan d rest RState.inField f.data accR := by
  cases hf : f.data with
  | nil =>
    exact absurd (congrArg String.mk hf) (plainField_ne d f hp)
  | cons c cs =>
    have hch := plainField_chars d f hp
    have hc := hch c (by rw [hf]; exact List.mem_cons_self _ _)
    have hcn : c ≠ '\n' := by
      intro he; rw [he] at hc; simp [pyLineBreak] at hc
    have hstep : csvScan d ((c :: cs) ++ rest) RState.startField [] accR
        = (if c = '"' then csvScan d (cs ++ rest) RState.inQuoted [] accR
          else if c = d then csvScan d (cs ++ rest) RState.startField [] (accR ++ [""])
          else if c = '\n' then (accR ++ [""]) :: csvScan d (cs ++ rest) RState.startRecord [] []
          else csvScan d (cs ++ rest) RState.inField [c] accR) := rfl
    rw [hstep, if_neg hc.2.2, if_neg hc.2.1, if_neg hcn,
      csvScan_inField_chars d cs (fun x hx => ⟨(hch x (by rw [hf]; exact List.mem_cons_of_mem _ hx)).2.1,
        by
          have := (hch x (by rw [hf]; exact List.mem_cons_of_mem _ hx)).1
          intro he; rw [he] at this; simp [pyLineBreak] at this⟩) rest [c] accR]
    rfl

theorem csvScan_fields_eoi (d : Char) :
    ∀ (fs : List String), (∀ f ∈ fs, plainField d f = true) →
      ∀ (accF : List Char) (accR : List String),
      csvScan d (fs.flatMap (fun g => d :: g.data)) RState.inField accF accR
        = [accR ++ ⟨accF⟩ :: fs] := by
  intro fs
  induction fs with
  | nil => intro _ accF accR; rfl
  | cons g gs ih =>
    intro h accF accR
    rw [List.flatMap_cons]
    have hstep : csvScan d ((d :: g.data) ++ gs.flatMap (fun g => d :: g.data))
          RState.inField accF accR
        = csvScan d (g.data ++ gs.flatMap (fun g => d :: g.data))
            RState.startField [] (accR ++ [⟨accF⟩]) := by
      rw [List.cons_append]
      show (if d = d then csvScan d (g.data ++ gs.flatMap fun g => d :: g.data)
          RState.startField [] (accR ++ [⟨accF⟩]) else _) = _
      rw [if_pos rfl]
    rw [hstep, csvScan_field_start d g (h g (List.mem_cons_self _ _)) _ _,
      ih (fun x hx => h x (List.mem_cons_of_mem _ hx)) g.data (accR ++ [String.mk accF])]
    simp

theorem csvScan_fields_nl (d : Char) (hdn : d ≠ '\n') :
    ∀ (fs : List String), (∀ f ∈ fs, plainField d f = true) →
      ∀ (rest : List Char) (accF : List Char) (accR : List String),
      csvScan d (fs.flatMap (fun g => d :: g.data) ++ '\n' :: rest) RState.inField accF accR
        = (accR ++ ⟨accF⟩ :: fs) :: csvScan d rest RState.startRecord [] [] := by
  intro fs
  induction fs with
  | nil =>
    intro _ rest accF accR
    show (if '\n' = d then _ else if '\n' = '\n' then
        (accR ++ [⟨accF⟩]) :: csvScan d rest RState.startRecord [] [] else _)
      = (accR ++ [⟨accF⟩]) :: csvScan d rest RState.startRecord [] []
    rw [if_neg (fun he => hdn he.symm), if_pos rfl]
  | cons g gs ih =>
    intro h rest accF accR
    rw [List.flatMap_cons]
    have hstep : csvScan d (((d :: g.data) ++ gs.flatMap (fun g => d :: g.data)) ++ '\n' :: rest)
          RState.inField accF accR
        = csvScan d ((g.data ++ gs.flatMap (fun g => d :: g.data)) ++ '\n' :: rest)
            RState.startField [] (accR ++ [⟨accF⟩]) := by
      rw [List.cons_append, List.cons_append]
      show (if d = d then _ else _) = _
      rw [if_pos rfl]
    rw [hstep, List.append_assoc, csvScan_field_start d g (h g (List.mem_cons_self _ _)) _ _,
      ih (fun x hx => h x (List.mem_cons_of_mem _ hx)) rest g.data (accR ++ [String.mk accF])]
    simp

theorem intercalateD_data (d : Char) (f : String) (fs : List String) :
    (String.intercalate ⟨[d]⟩ (f :: fs)).data
      = f.data ++ fs.flatMap (fun g => d :: g.data) := by
  rw [intercalate_data_cons]
  congr 1

theorem csvScan_record (d : Char) (hdn : d ≠ '\n') (fs : List String) (hne : fs ≠ [])
    (h : ∀ f ∈ fs, plainField d f = true) (rest : List Char) :
    csvScan d ((String.intercalate ⟨[d]⟩ fs).data ++ '\n' :: rest) RState.startRecord [] []
      = fs :: csvScan d rest RState.startRecord [] [] := by
  cases fs with
  | nil => exact absurd rfl hne
  | cons f fs =>
    rw [intercalateD_data]
    have hp := h f (List.mem_cons_self _ _)
    have hch := plainField_chars d f hp
    cases hf : f.data with
    | nil => exact absurd (congrArg String.mk hf) (plainField_ne d f hp)
    | cons c cs =>
      have hc := hch c (by rw [hf]; exact List.mem_cons_self _ _)
      have hcn : c ≠ '\n' := by
        intro he; rw [he] at hc; simp [pyLineBreak] at hc
      have hstep : csvScan d ((c :: cs) ++ (fs.flatMap (fun g => d :: g.data) ++ '\n' :: rest))
            RState.startRecord [] []
          = (if c = '\n' then [] :: csvScan d (cs ++ (fs.flatMap (fun g => d :: g.data) ++ '\n' :: rest)) RState.startRecord [] []
            else if c = '"' then csvScan d (cs ++ (fs.flatMap (fun g => d :: g.data) ++ '\n' :: rest)) RState.inQuoted [] []
            else if c = d then csvScan d (cs ++ (fs.flatMap (fun g => d :: g.data) ++ '\n' :: rest)) RState.startField [] [""]
            else csvScan d (cs ++ (fs.flatMap (fun g => d :: g.data) ++ '\n' :: rest)) RState.inField [c] []) := rfl
      rw [List.append_assoc, hstep, if_neg hcn, if_neg hc.2.2, if_neg hc.2.1,
        csvScan_inField_chars d cs (fun x hx => ⟨(hch x (by rw [hf]; exact List.mem_cons_of_mem _ hx)).2.1,
          by
            have := (hch x (by rw [hf]; exact List.mem_cons_of_mem _ hx)).1
            intro he; rw [he] at this; simp [pyLineBreak] at this⟩) _ [c] [],
        List.singleton_append,
        csvScan_fields_nl d hdn fs (fun x hx => h x (List.mem_cons_of_mem _ hx)) rest (c :: cs) []]
      rw [← hf]
      simp

theorem csvScan_record_last (d : Char) (fs : List String) (hne : fs ≠ [])
    (h : ∀ f ∈ fs, plainField d f = true) :
    csvScan d ((String.intercalate ⟨[d]⟩ fs).data) RState.startRecord [] [] = [fs] := by
  cases fs with
  | nil => exact absurd rfl hne
  | cons f fs =>
    rw [intercalateD_data]
    have hp := h f (List.mem_cons_self _ _)
    have hch := plainField_chars d f hp
    cases hf : f.data with
    | nil => exact absurd (congrArg String.mk hf) (plainField_ne d f hp)
    | cons c cs =>
      have hc := hch c (by rw [hf]; exact List.mem_cons_self _ _)
      have hcn : c ≠ '\n' := by
        intro he; rw [he] at hc; simp [pyLineBreak] at hc
      have hstep : csvScan d ((c :: cs) ++ fs.flatMap (fun g => d :: g.data))
            RState.startRecord [] []
          = (if c = '\n' then [] :: csvScan d (cs ++ fs.flatMap (fun g => d :: g.data)) RState.startRecord [] []
            else if c = '"' then csvScan d (cs ++ fs.flatMap (fun g => d :: g.data)) RState.inQuoted [] []
            else if c = d then csvScan d (cs ++ fs.flatMap (fun g => d :: g.data)) RState.startField [] [""]
            else csvScan d (cs ++ fs.flatMap (fun g => d :: g.data)) RState.inField [c] []) := rfl
      rw [hstep, if_neg hcn, if_neg hc.2.2, if_neg hc.2.1,
        csvScan_inField_chars d cs (fun x hx => ⟨(hch x (by rw [hf]; exact List.mem_cons_of_mem _ hx)).2.1,
          by
            have := (hch x (by rw [hf]; exact List.mem_cons_of_mem _ hx)).1
            intro he; rw [he] at this; simp [pyLineBreak] at this⟩) _ [c] [],
        List.singleton_append,
        csvScan_fields_eoi d fs (fun x hx => h x (List.mem_cons_of_mem _ hx)) (c :: cs) []]
      rw [← hf]
      simp

theorem csvScan_records (d : Char) (hdn : d ≠ '\n') :
    ∀ (rss : List (List String)), rss ≠ [] →
      (∀ fs ∈ rss, fs ≠ [] ∧ ∀ f ∈ fs, plainField d f = true) →
      csvParse (joinLines (rss.map (fun fs => String.intercalate ⟨[d]⟩ fs))) d = rss := by
  intro rss
  induction rss with
  | nil => intro hne _; exact absurd rfl hne
  | cons r rs ih =>
    intro _ h
    have hr := h r (List.mem_cons_self _ _)
    cases rs with
    | nil =>
      show csvScan d (String.intercalate "\n"
          [String.intercalate ⟨[d]⟩ r]).data RState.startRecord [] [] = [r]
      rw [show String.intercalate "\n" [String.intercalate ⟨[d]⟩ r]
          = String.intercalate ⟨[d]⟩ r from rfl]
      exact csvScan_record_last d r hr.1 hr.2
    | cons r2 rs2 =>
      show csvScan d (String.intercalate "\n"
          (((r :: r2 :: rs2)).map (fun fs => String.intercalate ⟨[d]⟩ fs))).data
          RState.startRecord [] [] = r :: r2 :: rs2
      have hjoin : (String.intercalate "\n"
            (((r :: r2 :: rs2)).map (fun fs => String.intercalate ⟨[d]⟩ fs))).data
          = (String.intercalate ⟨[d]⟩ r).data ++ '\n' ::
              (String.intercalate "\n"
                ((r2 :: rs2).map (fun fs => String.intercalate ⟨[d]⟩ fs))).data := by
        rw [List.map_cons, intercalate_data_cons, List.map_cons, intercalate_data_cons]
        simp
      rw [hjoin, csvScan_record d hdn r hr.1 hr.2 _]
      have := ih (by simp) (fun fs hfs => h fs (List.mem_cons_of_mem _ hfs))
      unfold csvParse joinLines at this
      rw [this]

theorem dedupNamesAux_of_new :
    ∀ (cs : List String) (seen : List (String × Nat)),
      (∀ c ∈ cs, assocGet seen c = none) → cs.Nodup →
      dedupNamesAux seen cs = cs := by
  intro cs
  induction cs with
  | nil => intro seen _ _; rfl
  | cons c cs ih =>
    intro seen h hnd
    rw [dedupNamesAux_cons_none seen c cs (h c (List.mem_cons_self _ _))]
    rw [ih (assocSet seen c 1) ?hnew (List.nodup_cons.mp hnd).2]
    case hnew =>
      intro x hx
      have hxc : c ≠ x := fun he => (List.nodup_cons.mp hnd).1 (he ▸ hx)
      rw [assocGet_set_ne seen c x 1 hxc]
      exact h x (List.mem_cons_of_mem _ hx)

theorem dedupNames_of_nodup (cols : List String) (h : cols.Nodup) :
    dedupNames cols = cols :=
  dedupNamesAux_of_new cols [] (fun _ _ => rfl) h

theorem dropDuplicatesAux_of_new :
    ∀ (rows seen : List (List (Option String))),
      (∀ r ∈ rows, ¬ r ∈ seen) → rows.Nodup →
      dropDuplicatesAux seen rows = rows := by
  intro rows
  induction rows with
  | nil => intro seen _ _; rfl
  | cons r rows ih =>
    intro seen h hnd
    rw [dropDuplicatesAux_cons, if_neg]
    · rw [ih (seen ++ [r]) ?hnew (List.nodup_cons.mp hnd).2]
      case hnew =>
        intro x hx hmem
        rcases List.mem_append.mp hmem with h1 | h1
        · exact h x (List.mem_cons_of_mem _ hx) h1
        · rw [List.mem_singleton] at h1
          exact (List.nodup_cons.mp hnd).1 (h1 ▸ hx)
    · intro hcon
      exact h r (List.mem_cons_self _ _) (List.mem_of_elem_eq_true hcon)

theorem dropDuplicates_of_nodup (rows : List (List (Option String))) (h : rows.Nodup) :
    dropDuplicates rows = rows :=
  dropDuplicatesAux_of_new rows [] (fun _ _ hm => (List.not_mem_nil _ hm)) h

theorem repairRow_id (n : Nat) (r : List String) (h : r.length = n) :
    repairRow n r = r := by
  unfold repairRow
  rw [if_neg (by omega), if_neg (by omega)]

theorem plainField_strip (d : Char) (s : String) (h : plainField d s = true) :
    pyStrip s = s := by
  unfold plainField at h
  simp only [Bool.and_eq_true, decide_eq_true_eq] at h
  exact h.1.2

theorem flatMap_data_append_nl (ls : List String) :
    (ls.map (· ++ "\n")).flatMap (·.data) = ls.flatMap (fun l => l.data ++ ['\n']) := by
  induction ls with
  | nil => rfl
  | cons a as ih =>
    rw [List.map_cons, List.flatMap_cons, List.flatMap_cons, ih, String.data_append]

theorem map_mk_data (xs : List String) :
    xs.map (fun l => (⟨l.data⟩ : String)) = xs := by
  induction xs with
  | nil => rfl
  | cons a as ih => rw [List.map_cons, ih]

theorem flatMap_map_data (ls : List String) :
    (ls.map (·.data)).flatMap (fun l => l ++ ['\n'])
      = ls.flatMap (fun l => l.data ++ ['\n']) := by
  induction ls with
  | nil => rfl
  | cons a as ih => rw [List.map_cons, List.flatMap_cons, List.flatMap_cons, ih]

theorem line_break_free (d : Char) (hdb : pyLineBreak d = false) (fs : List String)
    (hne : fs ≠ []) (h : ∀ f ∈ fs, plainField d f = true) :
    ∀ c ∈ (String.intercalate ⟨[d]⟩ fs).data, pyLineBreak c = false := by
  cases fs with
  | nil => exact absurd rfl hne
  | cons f fs =>
    rw [intercalateD_data]
    intro c hc
    rcases List.mem_append.mp hc with h1 | h1
    · exact (plainField_chars d f (h f (List.mem_cons_self _ _)) c h1).1
    · rw [List.mem_flatMap] at h1
      obtain ⟨g, hg, hcg⟩ := h1
      rcases List.mem_cons.mp hcg with h2 | h2
      · rw [h2]; exact hdb
      · exact (plainField_chars d g (h g (List.mem_cons_of_mem _ hg)) c h2).1


set_option maxHeartbeats 2000000 in
/-- C6 (amended): the pipeline is stable on its own output for tables
that are fixpoints of the cleaning stages.  If the table's snake-cased
header names are unchanged and duplicate-free, all rows match the
header width, all cells are present, stripped and free of delimiter,
quote and line-break characters, the rows are duplicate-free and within
the size caps, and the decode, newline-normalization, stitch, delimiter
and preamble stages return the written text unchanged (up to rejoining
the final newline), then a second run performs no repairs: no repaired
row indices, no import warning, no dropped rows and no renamed columns
— the table and the output text are reproduced exactly. -/
theorem repair_second_run_stable (t : PyTable) (d : Char) (enc : String)
    (hdb : pyLineBreak d = false)
    (hhead : t.header ≠ [])
    (hplainh : ∀ f ∈ t.header, plainField d f = true)
    (hcells : ∀ r ∈ t.rows, ∀ cell ∈ r, ∃ s, cell = some s ∧ plainField d s = true)
    (hlen : ∀ r ∈ t.rows, r.length = t.header.length)
    (hnodup : t.header.Nodup)
    (hsnake : t.header.map snake_case = t.header)
    (hrnodup : t.rows.Nodup)
    (hrcap : t.rows.length ≤ MAX_ROWS)
    (hccap : t.header.length ≤ MAX_COLS)
    (hdec : decode_text_with_fallback (utf8Encode (toCsv t d)) = some (toCsv t d, enc))
    (hnn : normalizeNewlines (toCsv t d) = toCsv t d)
    (hst : stitch_csv_records (toCsv t d) = toCsv t d)
    (hgd : guess_delimiter_euro_aware (toCsv t d) = d)
    (hdp : detect_and_strip_preamble (toCsv t d) d = joinLines (pySplitlines (toCsv t d))) :
    repair (utf8Encode (toCsv t d))
      = .ok { table := t, importWarning := false, repairedIdx := [],
              delim := d, outText := toCsv t d } := by
  have hdn : d ≠ '\n' := by
    intro he; rw [he] at hdb; simp [pyLineBreak] at hdb
  have hrecords : ∀ fs ∈ t.header :: t.rows.map (fun r => r.map (fun c => c.getD "")),
      fs ≠ [] ∧ ∀ f ∈ fs, plainField d f = true := by
    intro fs hfs
    rcases List.mem_cons.mp hfs with h1 | h1
    · rw [h1]; exact ⟨hhead, hplainh⟩
    · rw [List.mem_map] at h1
      obtain ⟨r, hr, hfr⟩ := h1
      constructor
      · intro he
        have h2 : r.length = t.header.length := hlen r hr
        have h3 : fs.length = r.length := by rw [← hfr]; simp
        rw [he] at h3
        simp at h3
        have h4 : t.header.length = 0 := by omega
        exact hhead (List.length_eq_zero.mp h4)
      · intro f hf
        rw [← hfr] at hf
        rw [List.mem_map] at hf
        obtain ⟨cell, hcell, hfc⟩ := hf
        obtain ⟨s, hs, hps⟩ := hcells r hr cell hcell
        rw [← hfc, hs]
        exact hps
  have hout : (toCsv t d).data
      = ((t.header :: t.rows.map (fun r => r.map (fun c => c.getD ""))).map
          (fun fs => String.intercalate ⟨[d]⟩ fs)).flatMap (fun l => l.data ++ ['\n']) := by
    have e1 : writeRow d t.header = String.intercalate ⟨[d]⟩ t.header :=
      writeRow_plain d t.header hhead hplainh
    have e2 : t.rows.map (fun r => writeRow d (r.map (fun c => c.getD "")))
        = (t.rows.map (fun r => r.map (fun c => c.getD ""))).map
            (fun fs => String.intercalate ⟨[d]⟩ fs) := by
      rw [List.map_map]
      apply List.map_congr_left
      intro r hr
      have h2 := hrecords (r.map (fun c => c.getD ""))
        (List.mem_cons_of_mem _ (List.mem_map_of_mem _ hr))
      exact writeRow_plain d _ h2.1 h2.2
    unfold toCsv
    rw [join_data, flatMap_data_append_nl, List.map_cons, e1, e2]
  have hsplit : pySplitlines (toCsv t d)
      = (t.header :: t.rows.map (fun r => r.map (fun c => c.getD ""))).map
          (fun fs => String.intercalate ⟨[d]⟩ fs) := by
    unfold pySplitlines
    rw [hout, ← flatMap_map_data, pySplitlinesL_terminated, List.map_map]
    · exact map_mk_data _
    · intro l hl
      rw [List.mem_map] at hl
      obtain ⟨lstr, hls, hlstr⟩ := hl
      rw [List.mem_map] at hls
      obtain ⟨fs, hfs, hfsl⟩ := hls
      rw [← hlstr, ← hfsl]
      exact line_break_free d hdb fs (hrecords fs hfs).1 (hrecords fs hfs).2
  have hparse : csvParse (joinLines (pySplitlines (toCsv t d))) d
      = t.header :: t.rows.map (fun r => r.map (fun c => c.getD "")) := by
    rw [hsplit]
    exact csvScan_records d hdn _ (by simp) (fun fs hfs => hrecords fs hfs)
  have hn : ∀ r ∈ t.rows.map (fun r => r.map (fun c => c.getD "")),
      r.length = t.header.length := by
    intro r hr
    rw [List.mem_map] at hr
    obtain ⟨r0, hr0, hrr⟩ := hr
    rw [← hrr, List.length_map]
    exact hlen r0 hr0
  have hrows_back : ((t.rows.map (fun r => r.map (fun c => c.getD ""))).map
        (repairRow t.header.length)).map (·.map some) = t.rows := by
    have s1 : (t.rows.map (fun r => r.map (fun c => c.getD ""))).map
          (repairRow t.header.length)
        = t.rows.map (fun r => r.map (fun c => c.getD "")) := by
      have s0 := List.map_congr_left (l := t.rows.map (fun r => r.map (fun c => c.getD "")))
        (f := repairRow t.header.length) (g := id)
        (fun r hr => repairRow_id t.header.length r (hn r hr))
      rw [s0, List.map_id]
    rw [s1, List.map_map]
    have h2 : ∀ r ∈ t.rows,
        ((fun x : List String => x.map some)
          ∘ fun r : List (Option String) => r.map (fun c => c.getD "")) r = id r := by
      intro r hr
      simp only [Function.comp_apply, List.map_map]
      have h3 : ∀ cell ∈ r, (some ∘ fun c : Option String => c.getD "") cell = id cell := by
        intro cell hc
        obtain ⟨w, hw, _⟩ := hcells r hr cell hc
        rw [hw]
        rfl
      rw [List.map_congr_left h3, List.map_id]
      rfl
    rw [List.map_congr_left h2, List.map_id]
  have hcount1 : (t.rows.map (fun r => r.map (fun c => c.getD ""))).countP
      (fun r => t.header.length < r.length) = 0 := by
    rw [List.countP_eq_zero]
    intro r hr
    simp [hn r hr]
  have hcount2 : (t.rows.map (fun r => r.map (fun c => c.getD ""))).countP
      (fun r => r.length < t.header.length) = 0 := by
    rw [List.countP_eq_zero]
    intro r hr
    simp [hn r hr]
  have hidx : repairedIndices t.header.length
      (t.rows.map (fun r => r.map (fun c => c.getD ""))) = [] :=
    (repairedIndicesAux_nil_iff t.header.length _ 0).mpr hn
  have hread : read_csv_lenient (joinLines (pySplitlines (toCsv t d))) d
      = .ok (t, false, []) := by
    unfold read_csv_lenient
    dsimp only
    rw [hparse, if_neg (by simp only [List.length_cons, List.length_map]; omega)]
    split
    · rename_i heq
      exact absurd heq (by simp)
    · rename_i header dataRows heq
      injection heq with hh hdr
      subst hh
      subst hdr
      rw [if_neg (by omega)]
      rw [hcount1, hcount2, hidx, hrows_back]
      rfl
  have hnorm : normalize_columns t = (t, false) := by
    unfold normalize_columns
    dsimp only
    rw [hsnake, dedupNames_of_nodup t.header hnodup]
    rw [if_neg (fun h => h rfl)]
  have htrim : trim_whitespace_df t = t := by
    unfold trim_whitespace_df
    have h2 : ∀ r ∈ t.rows, (·.map trimCell) r = id r := by
      intro r hr
      have h3 : ∀ cell ∈ r, trimCell cell = id cell := by
        intro cell hc
        obtain ⟨s, hs, hp⟩ := hcells r hr cell hc
        rw [hs]
        show some (pyStrip s) = some s
        rw [plainField_strip d s hp]
      show r.map trimCell = id r
      rw [List.map_congr_left h3, List.map_id]
      rfl
    rw [List.map_congr_left h2, List.map_id]
  have hrm : (remove_duplicates_and_empty_rows t).1 = t := by
    unfold remove_duplicates_and_empty_rows
    dsimp only
    have hkeep : t.rows.filter (fun r => !rowAllMissing r) = t.rows := by
      rw [List.filter_eq_self]
      intro r hr
      have hr0 : r ≠ [] := by
        intro he
        have h2 := hlen r hr
        rw [he] at h2
        simp at h2
        exact hhead (List.length_eq_zero.mp h2.symm)
      obtain ⟨cell, hc⟩ := List.exists_mem_of_ne_nil r hr0
      obtain ⟨s, hs, _⟩ := hcells r hr cell hc
      unfold rowAllMissing
      cases hall : r.all (fun c => c = none)
      · rfl
      · have h3 := List.all_eq_true.mp hall cell hc
        simp only [decide_eq_true_eq] at h3
        rw [hs] at h3
        exact absurd h3 (by simp)
    rw [hkeep, dropDuplicates_of_nodup t.rows hrnodup]
  have hclean : clean_csv t = t := by
    unfold clean_csv
    rw [hnorm]
    show (remove_duplicates_and_empty_rows (trim_whitespace_df t)).1 = t
    rw [htrim]
    exact hrm
  have hcc : clean_csv_checked t = .ok t := by
    unfold clean_csv_checked
    rw [hnorm, if_pos hnodup, hclean]
  unfold repair
  rw [hdec]
  dsimp only
  rw [hnn, hst, hgd, hdp, hread]
  dsimp only
  rw [hcc]

/-- C6 (counterexample): an accepted input whose second run renames the
columns.  The input has the numeric header `1,2`, fifteen identical
data rows `3,4`, and a final row `alpha,beta`.  The first run accepts
it and runs to completion: the alphabetic row sits on line 17, beyond
`MAX_PREAMBLE`, so no preamble is stripped, and duplicate-row removal
collapses the fifteen copies, producing `1,2\n3,4\nalpha,beta\n` with
no repaired rows and no warning.  Running the pipeline on that output,
the alphabetic row now sits on line 3: header detection scores it
5.775 against -3.05 for the numeric lines and strips the two lines
before it, so the second run's column names become `alpha, beta`
instead of `1, 2` — a further repair, refuting idempotence. -/
theorem repair_not_idempotent :
    (repair (utf8Encode ("1,2\n3,4\n3,4\n3,4\n3,4\n3,4\n3,4\n3,4\n3,4\n"
        ++ "3,4\n3,4\n3,4\n3,4\n3,4\n3,4\n3,4\nalpha,beta"))).toOption.map
        (fun o => (o.table.header, o.outText, o.repairedIdx, o.importWarning))
      = some (["1", "2"], "1,2\n3,4\nalpha,beta\n", [], false)
    ∧ (repair (utf8Encode "1,2\n3,4\nalpha,beta\n")).toOption.map
        (fun o => o.table.header)
      = some ["alpha", "beta"]
    ∧ (["1", "2"] : List String) ≠ ["alpha", "beta"] := by
  refine ⟨by decide, by decide, by decide⟩

/-- Witness for C6 (amended) on the concrete table with header
`["a", "b"]` and single row `["1", "2"]`, delimiter comma. -/
theorem repair_second_run_stable_witness :
    repair (utf8Encode (toCsv { header := ["a", "b"], rows := [[some "1", some "2"]] } ','))
      = .ok { table := { header := ["a", "b"], rows := [[some "1", some "2"]] },
              importWarning := false, repairedIdx := [], delim := ',',
              outText := toCsv { header := ["a", "b"], rows := [[some "1", some "2"]] } ',' } := by
  apply repair_second_run_stable
      { header := ["a", "b"], rows := [[some "1", some "2"]] } ',' "utf-8-sig"
      (by decide) (by decide) (by decide) ?_ (by decide) (by decide) (by decide)
      (by decide) (by decide) (by decide) (by rfl) (by rfl) (by rfl) (by rfl) (by rfl)
  intro r hr cell hc
  simp only [List.mem_singleton] at hr
  subst hr
  rcases List.mem_cons.mp hc with h1 | h1
  · exact ⟨"1", h1, by decide⟩
  · rw [List.mem_singleton] at h1
    exact ⟨"2", h1, by decide⟩

end CleanCSV
